import Mathlib

set_option maxRecDepth 4000

/-!
A verification development for the agent execution engine of the
`telegram-ai-bot` repository: the OpenAI-style message / tool-call data
model, the streaming tool-call fragment decoder, the `<think>` stream
filter, the token budgeter, the two tool-calling loops
(`doSubAgentWithTools` and `runQuery`) and the MCP JSON-RPC client's
SSE framing and session handling.

Strings are modelled as byte sequences (`List Char`, one `Char` per
byte; the repository's contents are treated at the byte level exactly
as Go's `len`/slicing treat them).  Network calls (the model endpoint,
tool executors, JSON parsing) are the external boundary and enter the
embedding as explicit function parameters; everything downstream of
those boundaries is translated directly from the Go source.
-/

namespace TelegramAIBot

abbrev Str := List Char

/-- `FuncCall` holds the function name and serialized arguments
(source: `FuncCall`). -/
structure FuncCall where
  name : Str
  arguments : Str
deriving DecidableEq, Repr

/-- `ToolCall` represents a tool invocation requested by the model
(source: `ToolCall`). -/
structure ToolCall where
  id : Str
  type : Str
  function : FuncCall
deriving DecidableEq, Repr

/-- `Message` represents a chat message in OpenAI format
(source: `Message`). -/
structure Message where
  role : Str
  content : Str
  toolCalls : List ToolCall
  toolCallID : Str
deriving DecidableEq, Repr

/-- `StreamResult` holds the accumulated response from streaming
(source: `StreamResult`). -/
structure StreamResult where
  content : Str
  toolCalls : List ToolCall
deriving DecidableEq, Repr

/-- A tool-call fragment of one stream chunk delta
(source: `streamToolCall` with its nested `streamFuncCall`). -/
structure streamToolCall where
  index : Nat
  id : Str
  type : Str
  name : Str
  arguments : Str
deriving DecidableEq, Repr

/-! ## Stream decoder: tool-call fragment accumulation

`doStream` keeps `tcMap : map[int]*ToolCall` and merges each arriving
fragment into the slot given by its index; at end of stream it emits
slots `0 .. len(tcMap)-1` in ascending order.  The Go map is modelled
as an association list whose update rewrites the first matching key
and appends a fresh key at the end; `List.lookup` and `List.length`
then agree with Go's map indexing and `len`. -/

abbrev TCMap := List (Nat × ToolCall)

/-- The slot entry created for the first fragment of a slot (source:
`doStream` lines 187–196): all fields are taken verbatim. -/
def createCall (tc : streamToolCall) : ToolCall :=
  { id := tc.id, type := tc.type,
    function := { name := tc.name, arguments := tc.arguments } }

/-- The update applied to an existing slot entry (source: `doStream`
lines 179–186): `id` and `name` are overwritten when the fragment's
field is non-empty, `arguments` is appended, `type` is left alone. -/
def updateCall (v : ToolCall) (tc : streamToolCall) : ToolCall :=
  { v with
    id := if tc.id ≠ [] then tc.id else v.id,
    function := { name := if tc.name ≠ [] then tc.name else v.function.name,
                  arguments := v.function.arguments ++ tc.arguments } }

/-- Merge one fragment into the map: update the slot when present,
create it otherwise. -/
def applyStreamToolCall (m : TCMap) (tc : streamToolCall) : TCMap :=
  match m with
  | [] => [(tc.index, createCall tc)]
  | (k, v) :: rest =>
    if k = tc.index then (k, updateCall v tc) :: rest
    else (k, v) :: applyStreamToolCall rest tc

/-- Accumulating the fragments of a single slot: the first fragment
creates the entry, the rest update it. -/
def slotAccum (acc : Option ToolCall) (gs : List streamToolCall) : Option ToolCall :=
  gs.foldl
    (fun acc f =>
      match acc with
      | none => some (createCall f)
      | some v => some (updateCall v f))
    acc

/-- Accumulate a whole stream of fragments (in arrival order) into the
slot map, starting from the empty map. -/
def accumToolCalls (fs : List streamToolCall) : TCMap :=
  fs.foldl applyStreamToolCall []

/-- Finalize the call list (source: `doStream` lines 210–214): iterate
`i = 0 .. len(tcMap)-1` and collect the slots that are present. -/
def finalizeToolCalls (m : TCMap) : List ToolCall :=
  (List.range m.length).filterMap fun i => m.lookup i

/-- The fragments of one slot, in arrival order. -/
def slotFrags (fs : List streamToolCall) (i : Nat) : List streamToolCall :=
  fs.filter fun f => f.index = i

/-- Atomic delivery of a list of calls placed at given slot indices:
one fragment per call carrying all of its fields. -/
def atomicFrags (cs : List (Nat × ToolCall)) : List streamToolCall :=
  cs.map fun ic =>
    { index := ic.1, id := ic.2.id, type := ic.2.type,
      name := ic.2.function.name, arguments := ic.2.function.arguments }

/-- Last non-empty string of a list (`""` if none): the net effect of
the decoder's "overwrite when the fragment's field is non-empty"
update rule. -/
def lastNonempty (xs : List Str) : Str :=
  xs.foldl (fun acc x => if x = [] then acc else x) []

/-! ## Token budgeter -/

/-- `estimateTokens` gives a rough upper-bound token estimate for
messages, ~3 chars per token (source: `estimateTokens`). -/
def estimateTokens (messages : List Message) : Nat :=
  (messages.foldl
    (fun chars m =>
      chars + m.content.length + m.role.length + 4 +
        m.toolCalls.foldl
          (fun c tc => c + tc.function.name.length + tc.function.arguments.length + 20) 0)
    0) / 3 + 50

/-- `capMaxTokens` adjusts `maxTokens` so input+output fits within
`contextLimit` (source: `capMaxTokens`). -/
def capMaxTokens (contextLimit maxTokens : Int) (messages : List Message) : Int :=
  if contextLimit ≤ 0 then maxTokens
  else
    let estimated : Int := estimateTokens messages
    let available := contextLimit - estimated
    if available < 256 then 256
    else if available < maxTokens then available
    else maxTokens

/-- The output-size formula exactly as the claim words it
(`min(maxTokens, max(256, contextLimit − estimate))` for a positive
context limit, `maxTokens` unchanged otherwise), written down for
comparison against `capMaxTokens`. -/
def capClaimFormula (contextLimit maxTokens : Int) (messages : List Message) : Int :=
  if 0 < contextLimit then
    min maxTokens (max 256 (contextLimit - (estimateTokens messages : Int)))
  else maxTokens

/-! ## MCP client: SSE response framing -/

/-- A JSON-RPC 2.0 response envelope (source: `jsonRPCResponse`); the
`error` field carries `(code, message)` when present.  `result` is the
raw payload text. -/
structure jsonRPCResponse where
  jsonrpc : Str
  id : Option Int
  result : Str
  error : Option (Int × Str)
deriving DecidableEq, Repr

/-- `parseSSE` scans the body lines for `data:` payloads and returns
the first JSON-RPC response carrying a non-null id (source:
`MCPServer.parseSSE`).  JSON decoding is the stdlib boundary and is
passed in as `parse` (`none` = `json.Unmarshal` error); `none` overall
models the "no JSON-RPC response found in SSE stream" error. -/
def parseSSE (parse : Str → Option jsonRPCResponse) : List Str → Option jsonRPCResponse
  | [] => none
  | line :: rest =>
    if "data: ".toList <+: line then
      match parse (line.drop 6) with
      | some r =>
        match r.id with
        | some _ => some r
        | none => parseSSE parse rest
      | none => parseSSE parse rest
    else parseSSE parse rest

/-- The SSE scan as the claim words it: among the `data:` frames whose
payload parses and carries a non-null id, the first one. -/
def sseFirstWithId (parse : Str → Option jsonRPCResponse) (lines : List Str) :
    Option jsonRPCResponse :=
  lines.findSome? fun line =>
    if "data: ".toList <+: line then
      match parse (line.drop 6) with
      | some r => if r.id.isSome then some r else none
      | none => none
    else none

/-! ## MCP client: session-token handling

`rpcCall` sends the stored `Mcp-Session-Id` (when non-empty) on every
request and, on an HTTP 200 response, replaces the stored token by the
response's non-empty `Mcp-Session-Id` header; `rpcNotify` also sends
the stored token but discards the response entirely (source:
`MCPServer.rpcCall` lines 292–337, `MCPServer.rpcNotify` lines
339–365). -/

inductive ExchangeKind where
  | call
  | notify
deriving DecidableEq, Repr

/-- What the server sends back on one HTTP exchange: the status code
and the `Mcp-Session-Id` response header (`[]` = header absent, as
with Go's `Header.Get`). -/
structure ExchangeResp where
  status : Nat
  sessionHeader : Str
deriving DecidableEq, Repr

/-- The stored session token after one exchange.  Only `rpcCall`
stores a received token, and only on a 200 response with a non-empty
header; `rpcNotify` never reads the response. -/
def sessionAfter (st : Str) (k : ExchangeKind) (r : ExchangeResp) : Str :=
  match k with
  | .call => if r.status = 200 ∧ r.sessionHeader ≠ [] then r.sessionHeader else st
  | .notify => st

/-- Run a sequence of HTTP exchanges against one `MCPServer`,
returning the token each outgoing request carried (`[]` = header
omitted) and the final stored token. -/
def runExchanges (st : Str) : List (ExchangeKind × ExchangeResp) → List Str × Str
  | [] => ([], st)
  | (k, r) :: rest =>
    let st' := sessionAfter st k r
    let out := runExchanges st' rest
    (st :: out.1, out.2)

/-- The "most recently received token" over a sequence of exchanges as
the claim words it: the last non-empty session header returned on any
exchange, of any kind, regardless of status. -/
def lastHeaderAnyExchange (tr : List (ExchangeKind × ExchangeResp)) : Str :=
  tr.foldl (fun acc kr => if kr.2.sessionHeader ≠ [] then kr.2.sessionHeader else acc) []

/-- The token the code actually stores after a sequence of exchanges:
the last non-empty session header received on an `rpcCall` exchange
that answered HTTP 200 (starting from `st`). -/
def lastCallHeader (st : Str) (tr : List (ExchangeKind × ExchangeResp)) : Str :=
  tr.foldl
    (fun acc kr =>
      if kr.1 = ExchangeKind.call ∧ kr.2.status = 200 ∧ kr.2.sessionHeader ≠ [] then
        kr.2.sessionHeader
      else acc)
    st

/-! ## ThinkFilter

`thinkFilter.process` appends the chunk to `pending` and then loops:
outside a think block it looks for `"<think>"`, inside for
`"</think>"`; on a full match it emits the text before the marker and
flips mode, on a partial match at the end of `pending` it emits the
safe part and keeps the partial suffix, otherwise it emits everything.
`firstOccur` models `strings.Index` (first occurrence index) and
`partialSuffix` is the source's `partialSuffix`. -/

def thinkOpen : Str := "<think>".toList

def thinkClose : Str := "</think>".toList

/-- First index at which `tag` occurs in `s` (model of
`strings.Index(s, tag)`, with `none` for −1). -/
def firstOccur (tag : Str) : Str → Option Nat
  | [] => if tag <+: ([] : Str) then some 0 else none
  | c :: s => if tag <+: (c :: s) then some 0 else (firstOccur tag s).map (· + 1)

/-- Downward scan of `partialSuffix`: the largest `m ≤ bound` such
that `tag.take m` is a suffix of `s`, else 0. -/
def psAux (s tag : Str) : Nat → Nat
  | 0 => 0
  | n + 1 => if tag.take (n + 1) <:+ s then n + 1 else psAux s tag n

/-- `partialSuffix` returns the length of the longest suffix of `s`
that is a (proper) prefix of `tag`, or 0 (source: `partialSuffix`). -/
def partialSuffix (s tag : Str) : Nat :=
  psAux s tag (min (tag.length - 1) s.length)

/-- The observable outcome of draining the filter's loop on a pending
buffer: concatenated `writeContent` output, concatenated `writeThink`
output, and the final `active`/`pending` state. -/
structure TFOut where
  vis : Str
  thk : Str
  active : Bool
  pending : Str
deriving DecidableEq, Repr

/-- The `for f.pending != ""` loop of `thinkFilter.process`, run on a
buffer `s` in mode `a` until it returns (source: `thinkFilter.process`
lines 231–274).  Each full-marker match consumes the marker and flips
the mode; a partial-suffix match stops with that suffix pending. -/
def tfRun (a : Bool) (s : Str) : TFOut :=
  match a with
  | false =>
    match h : firstOccur thinkOpen s with
    | some idx =>
      let r := tfRun true (s.drop (idx + thinkOpen.length))
      ⟨s.take idx ++ r.vis, r.thk, r.active, r.pending⟩
    | none =>
      let n := partialSuffix s thinkOpen
      ⟨s.take (s.length - n), [], false, s.drop (s.length - n)⟩
  | true =>
    match h : firstOccur thinkClose s with
    | some idx =>
      let r := tfRun false (s.drop (idx + thinkClose.length))
      ⟨r.vis, s.take idx ++ r.thk, r.active, r.pending⟩
    | none =>
      let n := partialSuffix s thinkClose
      ⟨[], s.take (s.length - n), true, s.drop (s.length - n)⟩
termination_by s.length
decreasing_by
  · simp only [List.length_drop]
    have hlen : thinkOpen.length = 7 := rfl
    have hs : 0 < s.length := by
      cases s with
      | nil =>
        rw [firstOccur, if_neg (by decide)] at h
        exact absurd h (by simp)
      | cons c cs => simp
    omega
  · simp only [List.length_drop]
    have hlen : thinkClose.length = 8 := rfl
    have hs : 0 < s.length := by
      cases s with
      | nil =>
        rw [firstOccur, if_neg (by decide)] at h
        exact absurd h (by simp)
      | cons c cs => simp
    omega

/-- The filter's mutable state (source: `thinkFilter` struct; the four
output callbacks are replaced by the returned output strings). -/
structure thinkFilter where
  active : Bool
  pending : Str
deriving DecidableEq, Repr

/-- One `process` call: append the chunk to `pending` and drain the
loop; returns the new state, the `writeContent` output and the
`writeThink` output. -/
def process (f : thinkFilter) (chunk : Str) : thinkFilter × Str × Str :=
  let r := tfRun f.active (f.pending ++ chunk)
  (⟨r.active, r.pending⟩, r.vis, r.thk)

/-- `thinkFilter.flush` (source lines 276–288): emit the leftover
pending text in the current mode and reset. -/
def flush (f : thinkFilter) : Str × Str :=
  if f.pending = [] then ([], [])
  else if f.active then ([], f.pending)
  else (f.pending, [])

/-- Feed a list of chunks one by one, concatenating the outputs. -/
def processAll (f : thinkFilter) : List Str → thinkFilter × Str × Str
  | [] => (f, [], [])
  | c :: cs =>
    let o1 := process f c
    let o2 := processAll o1.1 cs
    (o2.1, o1.2.1 ++ o2.2.1, o1.2.2 ++ o2.2.2)

/-- A freshly created filter. -/
def initFilter : thinkFilter := ⟨false, []⟩

/-- Visible output of feeding the chunks one by one and flushing. -/
def visibleChunked (chunks : List Str) : Str :=
  let o := processAll initFilter chunks
  o.2.1 ++ (flush o.1).1

/-- Visible output of feeding the whole text in one `process` call and
flushing. -/
def visibleWhole (text : Str) : Str :=
  let o := process initFilter text
  o.2.1 ++ (flush o.1).1

/-- Reachable filter states: `pending` is a proper prefix of the
marker of the current mode. -/
def GoodState (f : thinkFilter) : Prop :=
  ∃ n, n < (if f.active then thinkClose else thinkOpen).length ∧
    f.pending = (if f.active then thinkClose else thinkOpen).take n

/-! ## stripThinkTags and the tool-calling loops -/

/-- The character class of Go's regexp `\s` (`[\t\n\f\r ]`). -/
def reSpace (c : Char) : Bool :=
  c == ' ' || c == '\t' || c == '\n' || c == '\x0c' || c == '\r'

/-- The character class trimmed by Go's `strings.TrimSpace` (ASCII
part of `unicode.IsSpace`). -/
def trimSpaceChar (c : Char) : Bool :=
  c == ' ' || c == '\t' || c == '\n' || c == '\x0b' || c == '\x0c' || c == '\r'

/-- One pass of the regexp `(?s)<think>.*?</think>\s*` replacement:
leftmost non-greedy match (first `"<think>"`, then the first
`"</think>"` after it, then a greedy whitespace run), removed, scan
resuming after the removed span. -/
def stripThinkAux (s : Str) : Str :=
  match h : firstOccur thinkOpen s with
  | none => s
  | some i =>
    match firstOccur thinkClose (s.drop (i + thinkOpen.length)) with
    | none => s
    | some j =>
      s.take i ++
        stripThinkAux
          ((s.drop (i + thinkOpen.length + j + thinkClose.length)).dropWhile reSpace)
termination_by s.length
decreasing_by
  · have h1 : ((s.drop (i + thinkOpen.length + j + thinkClose.length)).dropWhile reSpace).length
        ≤ (s.drop (i + thinkOpen.length + j + thinkClose.length)).length :=
      (List.dropWhile_suffix reSpace).length_le
    simp only [List.length_drop] at h1 ⊢
    have hlen : thinkOpen.length = 7 := rfl
    have hlen' : thinkClose.length = 8 := rfl
    have hs : 0 < s.length := by
      cases s with
      | nil =>
        rw [firstOccur, if_neg (by decide)] at h
        exact absurd h (by simp)
      | cons c cs => simp
    omega

/-- `stripThinkTags` (source: `reThinkTags.ReplaceAllString` followed
by `strings.TrimSpace`). -/
def stripThinkTags (s : Str) : Str :=
  (((stripThinkAux s).dropWhile trimSpaceChar).reverse.dropWhile trimSpaceChar).reverse

/-- One model request as issued by a loop: the conversation sent, · whether
the tool definitions were attached, and the `max_tokens` value. -/
structure ModelRequest where
  msgs : List Message
  withTools : Bool
  maxTokens : Int
deriving DecidableEq, Repr

/-- The content of the tool-role message appended for one dispatched
tool call in `doSubAgentWithTools` (source lines 384–394): a failure
becomes `"error: " + message`, and the result — success or failure —
is truncated with the `"\n[...truncated]"` marker when a positive
`maxToolResultChars` cap is exceeded. -/
def toolResultContent (maxToolResultChars : Int) (res : Except Str Str) : Str :=
  let toolResult : Str :=
    match res with
    | .error e => "error: ".toList ++ e
    | .ok r => r
  if 0 < maxToolResultChars ∧ maxToolResultChars < (toolResult.length : Int) then
    toolResult.take maxToolResultChars.toNat ++ "\n[...truncated]".toList
  else toolResult

/-- `doSubAgentWithTools` (source lines 354–413), with the streaming
endpoint abstracted as `model conversation withTools` and tool dispatch
as `execTool name arguments`.  The returned trace records every model
request issued, in order; the `Str` is the loop's return value.  The
fuel argument is the source's `maxRounds`; after it is exhausted one
final request is made without tools. -/
def doSubAgentWithTools
    (model : List Message → Bool → StreamResult)
    (execTool : Str → Str → Except Str Str)
    (contextLimit maxTokens maxToolResultChars : Int) :
    Nat → List Message → List ModelRequest × Str
  | 0, messages =>
    let effectiveMax := capMaxTokens contextLimit maxTokens messages
    let result := model messages false
    ([⟨messages, false, effectiveMax⟩], stripThinkTags result.content)
  | rounds + 1, messages =>
    let effectiveMax := capMaxTokens contextLimit maxTokens messages
    let result := model messages true
    if result.toolCalls = [] then
      ([⟨messages, true, effectiveMax⟩], stripThinkTags result.content)
    else
      let messages' := messages ++
        [{ role := "assistant".toList, content := result.content,
           toolCalls := result.toolCalls, toolCallID := [] }] ++
        result.toolCalls.map (fun tc =>
          { role := "tool".toList,
            content := toolResultContent maxToolResultChars
              (execTool tc.function.name tc.function.arguments),
            toolCalls := [], toolCallID := tc.id })
      let rest := doSubAgentWithTools model execTool contextLimit maxTokens
        maxToolResultChars rounds messages'
      (⟨messages, true, effectiveMax⟩ :: rest.1, rest.2)

/-- The top-level `runQuery` loop (source `main.go` lines 327–376): an
unbounded `for` loop that always sends the tool definitions and always
passes the configured `cfg.Limit.Output` as `max_tokens`; tool results
are appended untruncated.  The loop has no bound in the source, so the
embedding is run on explicit fuel: `none` means the fuel ran out with
the loop still going. -/
def runQuery
    (model : List Message → Bool → StreamResult)
    (execTool : Str → Str → Except Str Str)
    (outputLimit : Int) :
    Nat → List Message → List ModelRequest × Option Str
  | 0, _ => ([], none)
  | fuel + 1, messages =>
    let result := model messages true
    if result.toolCalls = [] then
      ([⟨messages, true, outputLimit⟩], some result.content)
    else
      let messages' := messages ++
        [{ role := "assistant".toList, content := result.content,
           toolCalls := result.toolCalls, toolCallID := [] }] ++
        result.toolCalls.map (fun tc =>
          { role := "tool".toList,
            content :=
              (match execTool tc.function.name tc.function.arguments with
               | .error e => "error: ".toList ++ e
               | .ok r => r),
            toolCalls := [], toolCallID := tc.id })
      let rest := runQuery model execTool outputLimit fuel messages'
      (⟨messages, true, outputLimit⟩ :: rest.1, rest.2)

/-- Well-formed conversations, as the message-ordering invariant words
it: every assistant message carrying tool calls is immediately
followed by exactly one tool-role message per call, in call order,
each echoing the call's id unchanged, with nothing interleaved; all
other messages carry no tool calls. -/
inductive WfConv : List Message → Prop where
  | nil : WfConv []
  | plain (m : Message) (rest : List Message) (h : m.toolCalls = [])
      (hr : WfConv rest) : WfConv (m :: rest)
  | block (m : Message) (contents : List Str) (rest : List Message)
      (hrole : m.role = "assistant".toList)
      (hne : m.toolCalls ≠ [])
      (hlen : contents.length = m.toolCalls.length)
      (hr : WfConv rest) :
      WfConv ((m :: List.zipWith
        (fun tc c => Message.mk "tool".toList c [] tc.id) m.toolCalls contents) ++ rest)

/-! ## Concrete instances used to exercise the definitions -/

/-- A sample tool call as the model would request it. -/
def demoToolCall : ToolCall :=
  ⟨"call-a".toList, "function".toList, ⟨"web_fetch".toList, "1".toList⟩⟩

/-- A model stub that requests `demoToolCall` on every turn where the
tool-set is offered, and answers with plain text otherwise. -/
def alwaysToolModel : List Message → Bool → StreamResult :=
  fun _ withTools =>
    if withTools then ⟨"using tool".toList, [demoToolCall]⟩
    else ⟨"final answer".toList, []⟩

/-- A model stub whose every turn carries a 3000-byte content and a
tool call, growing the conversation quickly. -/
def bigModel : List Message → Bool → StreamResult :=
  fun _ _ => ⟨List.replicate 3000 'a', [demoToolCall]⟩

/-- A tool executor that always succeeds. -/
def okExec : Str → Str → Except Str Str := fun _ _ => .ok "result".toList

/-- A tool executor that always fails with a fixed message. -/
def errExec : Str → Str → Except Str Str := fun _ _ => .error "boom boom boom".toList

/-- A two-message starting conversation (system + user). -/
def demoMsgs : List Message :=
  [⟨"system".toList, "sys".toList, [], []⟩, ⟨"user".toList, "hi".toList, [], []⟩]

/-- A one-message conversation whose token estimate is exactly 900. -/
def msgs900 : List Message := [⟨"user".toList, List.replicate 2542 'a', [], []⟩]

/-- A one-message conversation whose token estimate is exactly 200. -/
def msgs200 : List Message := [⟨"user".toList, List.replicate 442 'a', [], []⟩]

/-- A JSON-RPC notification (no id). -/
def demoNotification : jsonRPCResponse := ⟨"2.0".toList, none, [], none⟩

/-- A JSON-RPC response with id 1. -/
def demoResponse : jsonRPCResponse := ⟨"2.0".toList, some 1, "ok".toList, none⟩

/-- A JSON decoder stub for the two payloads of the SSE demo body
(anything else is a `json.Unmarshal` failure). -/
def demoParse : Str → Option jsonRPCResponse := fun s =>
  if s = "notif".toList then some demoNotification
  else if s = "resp1".toList then some demoResponse
  else none

/-- An SSE body: a keep-alive line, a notification frame, then a
response frame with id 1. -/
def demoSSELines : List Str :=
  ["event: message".toList, "data: notif".toList, "data: resp1".toList]

/-- Three MCP exchanges: a call that returns session token `"A"`, a
notification whose response carries token `"B"`, then another call. -/
def demoExchanges : List (ExchangeKind × ExchangeResp) :=
  [(.call, ⟨200, "A".toList⟩), (.notify, ⟨200, "B".toList⟩), (.call, ⟨200, []⟩)]

/-- Two tool calls placed at slots 0 and 1. -/
def demoCalls : List (Nat × ToolCall) :=
  [(0, ⟨"a".toList, "function".toList, ⟨"fetch".toList, "12".toList⟩⟩),
   (1, ⟨"b".toList, "function".toList, ⟨"mail".toList, "345".toList⟩⟩)]

/-- A fragmented delivery of `demoCalls`: slot 1 opens first, its
arguments arrive split in two pieces interleaved with slot 0's single
fragment. -/
def demoFrags : List streamToolCall :=
  [⟨1, "b".toList, "function".toList, "mail".toList, "34".toList⟩,
   ⟨0, "a".toList, "function".toList, "fetch".toList, "12".toList⟩,
   ⟨1, [], [], [], "5".toList⟩]

/-- A delivery in which the call's name is split into two fragments
(`"fet"` then `"ch"`). -/
def splitNameFrags : List streamToolCall :=
  [⟨0, "a".toList, "function".toList, "fet".toList, "12".toList⟩,
   ⟨0, [], [], "ch".toList, []⟩]

/-- The single call the split-name delivery is a fragmentation of. -/
def splitNameCalls : List (Nat × ToolCall) :=
  [(0, ⟨"a".toList, "function".toList, ⟨"fetch".toList, "12".toList⟩⟩)]

/-- The conversation after one `runQuery` round against `bigModel`:
the assistant message carries the 3000-byte content and the tool call,
followed by the tool reply. -/
def bigRound1Msgs : List Message :=
  [⟨"system".toList, "sys".toList, [], []⟩,
   ⟨"user".toList, "hi".toList, [], []⟩,
   ⟨"assistant".toList, List.replicate 3000 'a', [demoToolCall], []⟩,
   ⟨"tool".toList, "result".toList, [], "call-a".toList⟩]

/-- The first request of the demo sub-agent run (context limit 0, so
`capMaxTokens` passes `maxTokens` through). -/
def subDemoReq0 : ModelRequest := ⟨demoMsgs, true, 1000⟩

/-- The second (forced-final) request of the demo sub-agent run: the
failing tool's reply is the truncated error string. -/
def subDemoReq1 : ModelRequest :=
  ⟨demoMsgs ++ [⟨"assistant".toList, "using tool".toList, [demoToolCall], []⟩] ++
     [⟨"tool".toList, "error".toList ++ "\n[...truncated]".toList, [], "call-a".toList⟩],
   false, 1000⟩

/-! ## Token budgeter (C5) -/

/-- C5 counterexample: for contextLimit 1000, requested maxTokens 100
and a conversation estimated at 900 tokens, `capMaxTokens` returns the
floor 256, not `min(100, max(256, 100)) = 100` as the claimed formula
demands — the claimed `min` with `maxTokens` is not applied once the
floor kicks in. -/
theorem capMaxTokens_claim_false :
    capMaxTokens 1000 100 msgs900 = 256 ∧
    capClaimFormula 1000 100 msgs900 = 100 ∧
    capMaxTokens 1000 100 msgs900 ≠ capClaimFormula 1000 100 msgs900 := by
  have hest : estimateTokens msgs900 = 900 := by
    simp only [estimateTokens, msgs900, List.foldl_cons, List.foldl_nil,
      List.length_replicate]
    decide
  refine ⟨?_, ?_, ?_⟩ <;> simp [capMaxTokens, capClaimFormula, hest]

/-- C5 (amended): `capMaxTokens` returns `maxTokens` unchanged for a
non-positive context limit; for a positive context limit it returns
`min(maxTokens, max(256, contextLimit − estimate))` *whenever
`maxTokens ≥ 256`*, and returns the floor 256 outright whenever
`contextLimit − estimate < 256` (even when `maxTokens < 256`); in
particular with contextLimit 1000 an estimate of 900 yields 256 for
every requested size, and an estimate of 200 with requested size 500
yields 500. -/
theorem capMaxTokens_characterization
    (contextLimit maxTokens : Int) (messages : List Message) :
    (contextLimit ≤ 0 → capMaxTokens contextLimit maxTokens messages = maxTokens) ∧
    (0 < contextLimit → 256 ≤ maxTokens →
      capMaxTokens contextLimit maxTokens messages =
        min maxTokens (max 256 (contextLimit - (estimateTokens messages : Int)))) ∧
    (0 < contextLimit → contextLimit - (estimateTokens messages : Int) < 256 →
      capMaxTokens contextLimit maxTokens messages = 256) ∧
    (estimateTokens messages = 900 → capMaxTokens 1000 maxTokens messages = 256) ∧
    (estimateTokens messages = 200 → capMaxTokens 1000 500 messages = 500) := by
  refine ⟨fun h => by simp [capMaxTokens, h], ?_, ?_, ?_, ?_⟩
  · intro h1 h2
    simp only [capMaxTokens, if_neg (not_le.mpr h1)]
    split_ifs <;> omega
  · intro h1 h2
    simp only [capMaxTokens, if_neg (not_le.mpr h1)]
    split_ifs <;> omega
  · intro h
    simp only [capMaxTokens, h]
    norm_num
  · intro h
    simp only [capMaxTokens, h]
    norm_num

/-- Witness for `capMaxTokens_characterization`: concrete
conversations with estimates exactly 900 and 200. -/
theorem capMaxTokens_characterization_witness :
    (estimateTokens msgs900 = 900 ∧ capMaxTokens 1000 300 msgs900 = 256) ∧
    ((0:Int) < 1000 ∧ (256:Int) ≤ 500 ∧ estimateTokens msgs200 = 200 ∧
      capMaxTokens 1000 500 msgs200 =
        min 500 (max 256 (1000 - (estimateTokens msgs200 : Int))) ∧
      capMaxTokens 1000 500 msgs200 = 500) := by
  have h900 : estimateTokens msgs900 = 900 := by
    simp only [estimateTokens, msgs900, List.foldl_cons, List.foldl_nil,
      List.length_replicate]
    decide
  have h200 : estimateTokens msgs200 = 200 := by
    simp only [estimateTokens, msgs200, List.foldl_cons, List.foldl_nil,
      List.length_replicate]
    decide
  exact ⟨⟨h900, (capMaxTokens_characterization 1000 300 msgs900).2.2.2.1 h900⟩,
    ⟨by norm_num, by norm_num, h200,
     (capMaxTokens_characterization 1000 500 msgs200).2.1 (by norm_num) (by norm_num),
     (capMaxTokens_characterization 1000 500 msgs200).2.2.2.2 h200⟩⟩

/-! ## MCP SSE framing (C8) -/

/-- C8: `parseSSE` returns the first `data:` frame whose payload
parses as a JSON-RPC response carrying a non-null id, skipping
non-`data:` lines, unparseable payloads and id-less notification
frames; in particular, on a body with a notification frame followed by
an id-1 response frame it returns the id-1 frame. -/
theorem parseSSE_first_nonnull_id :
    (∀ (parse : Str → Option jsonRPCResponse) (lines : List Str),
      parseSSE parse lines = sseFirstWithId parse lines) ∧
    parseSSE demoParse demoSSELines = some demoResponse ∧
    demoResponse.id = some 1 := by
  refine ⟨fun parse lines => ?_, by decide, by decide⟩
  induction lines with
  | nil => rfl
  | cons l ls ih =>
    rw [parseSSE, sseFirstWithId, List.findSome?_cons, ← sseFirstWithId]
    by_cases hp : "data: ".toList <+: l
    · rw [if_pos hp, if_pos hp]
      cases hparse : parse (l.drop 6) with
      | none => simpa using ih
      | some r =>
        cases hid : r.id with
        | none => simpa [hid] using ih
        | some v => simp [hid]
    · rw [if_neg hp, if_neg hp]; simpa using ih

/-! ## MCP session tokens (C9) -/

/-- C9 counterexample: a session token received on a notification
exchange is dropped.  After a call that returned token `"A"` and a
notification whose response carried token `"B"`, the next request
still sends `"A"`, not the most recently received token `"B"`. -/
theorem session_token_claim_false :
    (runExchanges [] demoExchanges).1.get? 2 = some ("A".toList) ∧
    lastHeaderAnyExchange (demoExchanges.take 2) = "B".toList ∧
    ("A".toList : Str) ≠ "B".toList := by
  refine ⟨by decide, by decide, by decide⟩

/-- The fold step of `lastCallHeader` is exactly the per-exchange
session update performed by the client. -/
theorem lastCallHeader_step (st : Str) (kr : ExchangeKind × ExchangeResp) :
    (if kr.1 = ExchangeKind.call ∧ kr.2.status = 200 ∧ kr.2.sessionHeader ≠ [] then
        kr.2.sessionHeader
      else st) = sessionAfter st kr.1 kr.2 := by
  obtain ⟨k, r⟩ := kr
  cases k <;> simp [sessionAfter]

/-- C9 (amended): every outgoing request (call or notification)
carries the most recently *stored* session token, where a token is
stored only when an `rpcCall` exchange answers HTTP 200 with a
non-empty session header; notification responses never replace the
stored token. -/
theorem session_token_latest_call (st : Str) (tr : List (ExchangeKind × ExchangeResp)) :
    (∀ i, i < tr.length →
      (runExchanges st tr).1.get? i = some (lastCallHeader st (tr.take i))) ∧
    (runExchanges st tr).2 = lastCallHeader st tr := by
  induction tr generalizing st with
  | nil => exact ⟨fun i hi => absurd hi (by simp), rfl⟩
  | cons kr rest ih =>
    constructor
    · intro i hi
      cases i with
      | zero => simp [runExchanges, lastCallHeader]
      | succ n =>
        have hn : n < rest.length := by simpa using hi
        have := (ih (sessionAfter st kr.1 kr.2)).1 n hn
        simpa [runExchanges, lastCallHeader, List.foldl_cons, lastCallHeader_step]
          using this
    · have := (ih (sessionAfter st kr.1 kr.2)).2
      simpa [runExchanges, lastCallHeader, List.foldl_cons, lastCallHeader_step]
        using this

/-- Witness for `session_token_latest_call`: the third demo request
carries the token stored by the first two exchanges. -/
theorem session_token_latest_call_witness :
    2 < demoExchanges.length ∧
    (runExchanges [] demoExchanges).1.get? 2 =
      some (lastCallHeader [] (demoExchanges.take 2)) :=
  ⟨by decide, (session_token_latest_call [] demoExchanges).1 2 (by decide)⟩

/-! ## Stream decoder (C3) -/

/-- `List.lookup` on a cons cell, with the `BEq` test replaced by a
propositional one. -/
theorem lookup_cons (i k : Nat) (v : ToolCall) (rest : TCMap) :
    ((k, v) :: rest).lookup i = if i = k then some v else rest.lookup i := by
  by_cases h : i = k
  · subst h; simp [List.lookup]
  · have hb : (i == k) = false := beq_eq_false_iff_ne.mpr h
    simp [List.lookup, hb, h]

/-- Looking a slot up after merging one fragment: the fragment only
touches its own slot, where it acts as create-or-update. -/
theorem lookup_applyStreamToolCall (m : TCMap) (f : streamToolCall) (i : Nat) :
    (applyStreamToolCall m f).lookup i =
      if f.index = i then
        some (match m.lookup i with
              | none => createCall f
              | some v => updateCall v f)
      else m.lookup i := by
  induction m with
  | nil =>
    rw [show applyStreamToolCall [] f = [(f.index, createCall f)] from rfl, lookup_cons]
    by_cases h : f.index = i
    · subst h
      rw [if_pos rfl, if_pos rfl]
      rfl
    · rw [if_neg (show ¬ i = f.index from fun he => h he.symm),
        if_neg (show ¬ f.index = i from h)]
  | cons kv rest ih =>
    obtain ⟨k, v⟩ := kv
    by_cases hk : k = f.index
    · subst hk
      rw [show applyStreamToolCall ((f.index, v) :: rest) f = (f.index, updateCall v f) :: rest from by
        simp [applyStreamToolCall]]
      by_cases h : f.index = i
      · subst h
        rw [lookup_cons, lookup_cons, if_pos rfl, if_pos rfl, if_pos rfl]
      · rw [lookup_cons, lookup_cons,
          if_neg (show ¬ i = f.index from fun he => h he.symm),
          if_neg (show ¬ i = f.index from fun he => h he.symm),
          if_neg (show ¬ f.index = i from h)]
    · rw [show applyStreamToolCall ((k, v) :: rest) f = (k, v) :: applyStreamToolCall rest f from by
        simp [applyStreamToolCall, hk]]
      rw [lookup_cons, lookup_cons]
      by_cases h : i = k
      · subst h
        have hne : f.index ≠ i := fun he => hk he.symm
        rw [if_pos rfl, if_pos rfl, if_neg hne]
      · rw [if_neg h, if_neg h, ih]

/-- Looking a slot up after accumulating a whole fragment stream
depends only on that slot's fragment subsequence. -/
theorem lookup_foldl_applyStreamToolCall (fs : List streamToolCall) (m : TCMap) (i : Nat) :
    (fs.foldl applyStreamToolCall m).lookup i = slotAccum (m.lookup i) (slotFrags fs i) := by
  induction fs generalizing m with
  | nil => simp [slotFrags, slotAccum]
  | cons f fs ih =>
    rw [List.foldl_cons, ih, lookup_applyStreamToolCall]
    by_cases h : f.index = i
    · subst h
      rw [if_pos rfl]
      rw [show slotFrags (f :: fs) f.index = f :: slotFrags fs f.index from by
        simp [slotFrags]]
      cases hm : m.lookup f.index with
      | none => rfl
      | some v => rfl
    · rw [if_neg h]
      rw [show slotFrags (f :: fs) i = slotFrags fs i from by simp [slotFrags, h]]

/-- The slot map's key list after merging one fragment: unchanged when
the slot exists, extended by the new slot otherwise. -/
theorem keys_applyStreamToolCall (m : TCMap) (f : streamToolCall) :
    (applyStreamToolCall m f).map Prod.fst =
      if f.index ∈ m.map Prod.fst then m.map Prod.fst
      else m.map Prod.fst ++ [f.index] := by
  induction m with
  | nil => simp [applyStreamToolCall]
  | cons kv rest ih =>
    obtain ⟨k, v⟩ := kv
    by_cases hk : k = f.index
    · subst hk
      rw [show applyStreamToolCall ((f.index, v) :: rest) f
          = (f.index, updateCall v f) :: rest from by simp [applyStreamToolCall]]
      rw [List.map_cons, List.map_cons, if_pos (List.mem_cons_self _ _)]
    · have hne : f.index ≠ k := fun he => hk he.symm
      rw [show applyStreamToolCall ((k, v) :: rest) f
          = (k, v) :: applyStreamToolCall rest f from by simp [applyStreamToolCall, hk]]
      simp only [List.map_cons, ih, List.mem_cons]
      by_cases hmem : f.index ∈ rest.map Prod.fst
      · simp [hmem]
      · simp [hmem, hne]

/-- Membership in the accumulated map's keys is exactly occurrence
among the fragment indices. -/
theorem keys_foldl_mem (fs : List streamToolCall) (m : TCMap) (i : Nat) :
    (i ∈ (fs.foldl applyStreamToolCall m).map Prod.fst) ↔
      i ∈ m.map Prod.fst ∨ i ∈ fs.map (fun f => f.index) := by
  induction fs generalizing m with
  | nil => simp
  | cons f fs ih =>
    rw [List.foldl_cons, ih, keys_applyStreamToolCall]
    by_cases hmem : f.index ∈ m.map Prod.fst
    · simp only [if_pos hmem, List.map_cons, List.mem_cons]
      constructor
      · rintro (h | h)
        · exact Or.inl h
        · exact Or.inr (Or.inr h)
      · rintro (h | h | h)
        · exact Or.inl h
        · exact Or.inl (h ▸ hmem)
        · exact Or.inr h
    · simp only [if_neg hmem, List.map_cons, List.mem_cons, List.mem_append,
        List.mem_singleton]
      tauto

/-- The accumulated map's keys stay duplicate-free. -/
theorem keys_foldl_nodup (fs : List streamToolCall) (m : TCMap)
    (h : (m.map Prod.fst).Nodup) :
    ((fs.foldl applyStreamToolCall m).map Prod.fst).Nodup := by
  induction fs generalizing m with
  | nil => exact h
  | cons f fs ih =>
    rw [List.foldl_cons]
    refine ih _ ?_
    rw [keys_applyStreamToolCall]
    by_cases hmem : f.index ∈ m.map Prod.fst
    · simpa [hmem] using h
    · simp only [if_neg hmem]
      rw [List.nodup_append]
      refine ⟨h, List.nodup_singleton _, ?_⟩
      intro a ha hb
      rw [List.mem_singleton] at hb
      exact hmem (hb ▸ ha)

/-- Accumulating a slot's fragments starting from a present entry:
`id`/`name` are last-non-empty-wins, `type` is kept, `arguments`
concatenate. -/
theorem slotAccum_some (v : ToolCall) (gs : List streamToolCall) :
    slotAccum (some v) gs =
      some ⟨gs.foldl (fun a x => if x.id = [] then a else x.id) v.id,
            v.type,
            ⟨gs.foldl (fun a x => if x.name = [] then a else x.name) v.function.name,
             v.function.arguments ++ (gs.map (fun x => x.arguments)).join⟩⟩ := by
  induction gs generalizing v with
  | nil => simp [slotAccum]
  | cons g gs ih =>
    rw [show slotAccum (some v) (g :: gs) = slotAccum (some (updateCall v g)) gs from rfl]
    rw [ih]
    simp only [updateCall, List.map_cons, List.join, List.foldl_cons]
    congr 2
    · by_cases h : g.id = [] <;> simp [h, List.foldl_map]
    · congr 1
      · by_cases h : g.name = [] <;> simp [h, List.foldl_map]
      · simp [List.append_assoc]

/-- Accumulating a non-empty slot fragment list from scratch yields
the fragment-wise merged call. -/
theorem slotAccum_none (g : streamToolCall) (gs : List streamToolCall) :
    slotAccum none (g :: gs) =
      some ⟨lastNonempty ((g :: gs).map (fun x => x.id)),
            g.type,
            ⟨lastNonempty ((g :: gs).map (fun x => x.name)),
             ((g :: gs).map (fun x => x.arguments)).join⟩⟩ := by
  rw [show slotAccum none (g :: gs) = slotAccum (some (createCall g)) gs from rfl,
    slotAccum_some]
  simp only [createCall, lastNonempty, List.map_cons, List.foldl_cons, List.join]
  congr 2
  · by_cases h : g.id = [] <;> simp [h, List.foldl_map]
  · congr 1
    by_cases h : g.name = [] <;> simp [h, List.foldl_map]

/-- For duplicate-free slots, atomic delivery puts exactly one
fragment in each call's slot. -/
theorem slotFrags_atomic (cs : List (Nat × ToolCall)) (i : Nat) (c : ToolCall)
    (hnd : (cs.map Prod.fst).Nodup) (hmem : (i, c) ∈ cs) :
    slotFrags (atomicFrags cs) i =
      [⟨i, c.id, c.type, c.function.name, c.function.arguments⟩] := by
  induction cs with
  | nil => cases hmem
  | cons ic cs ih =>
    simp only [List.map_cons, List.nodup_cons] at hnd
    rcases List.mem_cons.mp hmem with h | h
    · subst h
      simp only [atomicFrags, slotFrags, List.map_cons, List.filter_cons]
      rw [if_pos (by simp)]
      congr 1
      rw [List.filter_eq_nil_iff]
      intro f hf
      obtain ⟨jc, hjc, rfl⟩ := List.mem_map.mp hf
      have hjm : jc.1 ∈ List.map Prod.fst cs := List.mem_map_of_mem Prod.fst hjc
      simpa using fun (he : jc.1 = i) => hnd.1 (he ▸ hjm)
    · have hi : i ≠ ic.1 := by
        intro he
        exact hnd.1 (he ▸ List.mem_map_of_mem Prod.fst h)
      simp only [atomicFrags, slotFrags, List.map_cons, List.filter_cons]
      rw [if_neg (by simpa using fun he => hi he.symm)]
      exact ih hnd.2 h

/-- The fragment indices cover exactly the call slots (from the
coverage and non-emptiness hypotheses of the invariance theorem). -/
theorem frag_indices_eq_slots (cs : List (Nat × ToolCall)) (fs : List streamToolCall)
    (hcover : ∀ f ∈ fs, f.index ∈ cs.map Prod.fst)
    (hslots : ∀ ic ∈ cs, slotFrags fs ic.1 ≠ []) (i : Nat) :
    i ∈ fs.map (fun f => f.index) ↔ i ∈ cs.map Prod.fst := by
  constructor
  · intro h
    obtain ⟨f, hf, rfl⟩ := List.mem_map.mp h
    exact hcover f hf
  · intro h
    obtain ⟨ic, hic, rfl⟩ := List.mem_map.mp h
    have := hslots ic hic
    rcases hg : slotFrags fs ic.1 with _ | ⟨g, gs⟩
    · exact absurd hg this
    · have hgmem : g ∈ slotFrags fs ic.1 := by rw [hg]; exact List.mem_cons_self g gs
      have hgfs : g ∈ fs ∧ g.index = ic.1 := by
        have := List.mem_filter.mp hgmem
        exact ⟨this.1, by simpa using this.2⟩
      exact hgfs.2 ▸ List.mem_map_of_mem (fun f => f.index) hgfs.1

/-- C3 (amended): the decoder finalizes the same ordered tool-call
list as atomic delivery for every fragmentation in which the
`arguments` strings are split into any number of in-order pieces and
fragments of different slots interleave arbitrarily, *provided* each
call's `id` and `name` are each delivered intact (the decoder keeps
the last non-empty value instead of concatenating) and the slot's
first fragment carries its `type`. -/
theorem decoder_fragmentation_invariant
    (cs : List (Nat × ToolCall)) (fs : List streamToolCall)
    (hnd : (cs.map Prod.fst).Nodup)
    (hcover : ∀ f ∈ fs, f.index ∈ cs.map Prod.fst)
    (hslots : ∀ ic ∈ cs, slotFrags fs ic.1 ≠ [])
    (hid : ∀ ic ∈ cs, lastNonempty ((slotFrags fs ic.1).map (fun x => x.id)) = ic.2.id)
    (hname : ∀ ic ∈ cs,
      lastNonempty ((slotFrags fs ic.1).map (fun x => x.name)) = ic.2.function.name)
    (htype : ∀ ic ∈ cs,
      ((slotFrags fs ic.1).map (fun x => x.type)).head? = some ic.2.type)
    (hargs : ∀ ic ∈ cs,
      ((slotFrags fs ic.1).map (fun x => x.arguments)).join = ic.2.function.arguments) :
    finalizeToolCalls (accumToolCalls fs) =
      finalizeToolCalls (accumToolCalls (atomicFrags cs)) := by
  have hatomcover : ∀ f ∈ atomicFrags cs, f.index ∈ cs.map Prod.fst := by
    intro f hf
    obtain ⟨ic, hic, rfl⟩ := List.mem_map.mp hf
    exact List.mem_map_of_mem Prod.fst hic
  have hatomslots : ∀ ic ∈ cs, slotFrags (atomicFrags cs) ic.1 ≠ [] := by
    intro ic hic
    rw [slotFrags_atomic cs ic.1 ic.2 hnd (by simpa using hic)]
    simp
  -- the two maps agree on every lookup
  have hlook : ∀ i, (accumToolCalls fs).lookup i = (accumToolCalls (atomicFrags cs)).lookup i := by
    intro i
    rw [show accumToolCalls fs = fs.foldl applyStreamToolCall [] from rfl,
      show accumToolCalls (atomicFrags cs) = (atomicFrags cs).foldl applyStreamToolCall [] from rfl,
      lookup_foldl_applyStreamToolCall, lookup_foldl_applyStreamToolCall]
    by_cases hmem : i ∈ cs.map Prod.fst
    · obtain ⟨ic, hic, rfl⟩ := List.mem_map.mp hmem
      rw [slotFrags_atomic cs ic.1 ic.2 hnd (by simpa using hic)]
      rcases hg : slotFrags fs ic.1 with _ | ⟨g, gs⟩
      · exact absurd hg (hslots ic hic)
      · rw [show (List.lookup ic.1 ([] : TCMap)) = none from rfl]
        rw [slotAccum_none, slotAccum_none]
        have htg : g.type = ic.2.type := by
          have := htype ic hic
          rw [hg] at this
          simpa using this
        have hidv := hid ic hic
        have hnamev := hname ic hic
        have hargsv := hargs ic hic
        rw [hg] at hidv hnamev hargsv
        rw [hidv, hnamev, hargsv, htg]
        have hsid : lastNonempty [ic.2.id] = ic.2.id := by
          by_cases hz : ic.2.id = [] <;> simp [lastNonempty, hz]
        have hsname : lastNonempty [ic.2.function.name] = ic.2.function.name := by
          by_cases hz : ic.2.function.name = [] <;> simp [lastNonempty, hz]
        simp [hsid, hsname]
    · have h1 : slotFrags fs i = [] := by
        simp only [slotFrags, List.filter_eq_nil_iff, decide_eq_true_eq]
        intro f hf he
        exact hmem (he ▸ hcover f hf)
      have h2 : slotFrags (atomicFrags cs) i = [] := by
        simp only [slotFrags, List.filter_eq_nil_iff, decide_eq_true_eq]
        intro f hf he
        exact hmem (he ▸ hatomcover f hf)
      rw [h1, h2]
  -- the two maps have the same size
  have hlen : (accumToolCalls fs).length = (accumToolCalls (atomicFrags cs)).length := by
    have k1 := fun i => keys_foldl_mem fs [] i
    have k2 := fun i => keys_foldl_mem (atomicFrags cs) [] i
    have n1 : ((accumToolCalls fs).map Prod.fst).Nodup :=
      keys_foldl_nodup fs [] (by simp)
    have n2 : ((accumToolCalls (atomicFrags cs)).map Prod.fst).Nodup :=
      keys_foldl_nodup (atomicFrags cs) [] (by simp)
    have hsame : ∀ i, i ∈ (accumToolCalls fs).map Prod.fst ↔
        i ∈ (accumToolCalls (atomicFrags cs)).map Prod.fst := by
      intro i
      rw [show accumToolCalls fs = fs.foldl applyStreamToolCall [] from rfl,
        show accumToolCalls (atomicFrags cs) = (atomicFrags cs).foldl applyStreamToolCall [] from rfl,
        k1 i, k2 i]
      simp only [List.map_nil, List.not_mem_nil, false_or]
      rw [frag_indices_eq_slots cs fs hcover hslots i,
        frag_indices_eq_slots cs (atomicFrags cs) hatomcover hatomslots i]
    have hcard : ((accumToolCalls fs).map Prod.fst).toFinset =
        ((accumToolCalls (atomicFrags cs)).map Prod.fst).toFinset := by
      ext i
      simp only [List.mem_toFinset]
      exact hsame i
    have := congrArg Finset.card hcard
    rwa [List.toFinset_card_of_nodup n1, List.toFinset_card_of_nodup n2,
      List.length_map, List.length_map] at this
  unfold finalizeToolCalls
  rw [hlen]
  exact List.filterMap_congr (fun i _ => hlook i)

/-- Witness for `decoder_fragmentation_invariant`: the two demo calls
delivered out of slot order with split arguments finalize exactly as
their atomic delivery. -/
theorem decoder_fragmentation_invariant_witness :
    ((demoCalls.map Prod.fst).Nodup ∧
      (∀ f ∈ demoFrags, f.index ∈ demoCalls.map Prod.fst) ∧
      (∀ ic ∈ demoCalls, slotFrags demoFrags ic.1 ≠ [])) ∧
    finalizeToolCalls (accumToolCalls demoFrags) =
      finalizeToolCalls (accumToolCalls (atomicFrags demoCalls)) :=
  ⟨⟨by decide, by decide, by decide⟩,
   decoder_fragmentation_invariant demoCalls demoFrags (by decide) (by decide)
     (by decide) (by decide) (by decide) (by decide) (by decide)⟩

/-- C3 counterexample: a tool-call name split into two fragments
(`"fet"` then `"ch"`) is *not* reassembled — the decoder keeps only
the last piece, so the finalized list differs from atomic delivery of
the same call. -/
theorem decoder_claim_false :
    finalizeToolCalls (accumToolCalls splitNameFrags) =
      [⟨"a".toList, "function".toList, ⟨"ch".toList, "12".toList⟩⟩] ∧
    finalizeToolCalls (accumToolCalls (atomicFrags splitNameCalls)) =
      [⟨"a".toList, "function".toList, ⟨"fetch".toList, "12".toList⟩⟩] ∧
    finalizeToolCalls (accumToolCalls splitNameFrags) ≠
      finalizeToolCalls (accumToolCalls (atomicFrags splitNameCalls)) := by
  refine ⟨by decide, by decide, by decide⟩

/-! ## ThinkFilter: occurrence and partial-suffix facts -/

/-- A non-empty tag does not occur in the empty string. -/
theorem firstOccur_nil (tag : Str) (h : tag ≠ []) : firstOccur tag [] = none := by
  rw [firstOccur, if_neg]
  simpa [List.prefix_nil] using h

/-- What `firstOccur … = some i` means: an occurrence at `i` and none
earlier. -/
theorem firstOccur_some_spec (tag : Str) :
    ∀ (s : Str) (i : Nat), firstOccur tag s = some i →
      tag <+: s.drop i ∧ ∀ j, j < i → ¬ tag <+: s.drop j := by
  intro s
  induction s with
  | nil =>
    intro i h
    rw [firstOccur] at h
    by_cases hp : tag <+: ([] : Str)
    · rw [if_pos hp] at h
      obtain rfl : i = 0 := by simpa using h.symm
      exact ⟨by simpa using hp, fun j hj => absurd hj (by omega)⟩
    · rw [if_neg hp] at h
      exact absurd h (by simp)
  | cons c s ih =>
    intro i h
    rw [firstOccur] at h
    by_cases hp : tag <+: (c :: s)
    · rw [if_pos hp] at h
      obtain rfl : i = 0 := by simpa using h.symm
      exact ⟨by simpa using hp, fun j hj => absurd hj (by omega)⟩
    · rw [if_neg hp] at h
      cases hfo : firstOccur tag s with
      | none => rw [hfo] at h; exact absurd h (by simp)
      | some i' =>
        rw [hfo] at h
        obtain rfl : i = i' + 1 := by simpa using h.symm
        obtain ⟨hocc, hmin⟩ := ih i' hfo
        refine ⟨by simpa using hocc, ?_⟩
        intro j hj
        cases j with
        | zero => simpa using hp
        | succ j' => simpa using hmin j' (by omega)

/-- What `firstOccur … = none` means: no occurrence anywhere. -/
theorem firstOccur_none_spec (tag : Str) :
    ∀ (s : Str), firstOccur tag s = none → ∀ j, ¬ tag <+: s.drop j := by
  intro s
  induction s with
  | nil =>
    intro h j
    rw [firstOccur] at h
    by_cases hp : tag <+: ([] : Str)
    · rw [if_pos hp] at h; exact absurd h (by simp)
    · simpa using hp
  | cons c s ih =>
    intro h j
    rw [firstOccur] at h
    by_cases hp : tag <+: (c :: s)
    · rw [if_pos hp] at h; exact absurd h (by simp)
    · rw [if_neg hp] at h
      cases hfo : firstOccur tag s with
      | some i' => rw [hfo] at h; exact absurd h (by simp)
      | none =>
        cases j with
        | zero => simpa using hp
        | succ j' => simpa using ih hfo j'

/-- Converse: an occurrence at `i` with none earlier pins down
`firstOccur`. -/
theorem firstOccur_eq_some_of (tag : Str) :
    ∀ (s : Str) (i : Nat), tag <+: s.drop i → (∀ j, j < i → ¬ tag <+: s.drop j) →
      firstOccur tag s = some i := by
  intro s
  induction s with
  | nil =>
    intro i hocc hmin
    have htag : tag = [] := by simpa [List.prefix_nil] using hocc
    subst htag
    obtain rfl : i = 0 := by
      by_contra hne
      exact hmin 0 (by omega) (by simp)
    simp [firstOccur]
  | cons c s ih =>
    intro i hocc hmin
    cases i with
    | zero =>
      rw [firstOccur, if_pos (by simpa using hocc)]
    | succ i' =>
      rw [firstOccur, if_neg (by simpa using hmin 0 (by omega))]
      rw [ih i' (by simpa using hocc) (fun j hj => by simpa using hmin (j + 1) (by omega))]
      rfl

/-- An occurrence fits inside the string. -/
theorem firstOccur_some_le (tag s : Str) (i : Nat) (htag : tag ≠ [])
    (h : firstOccur tag s = some i) : i + tag.length ≤ s.length := by
  obtain ⟨hocc, -⟩ := firstOccur_some_spec tag s i h
  have hlen : tag.length ≤ (s.drop i).length := hocc.length_le
  rw [List.length_drop] at hlen
  have hi : i ≤ s.length := by
    by_contra hgt
    rw [List.drop_of_length_le (by omega)] at hocc
    exact htag (by simpa [List.prefix_nil] using hocc)
  omega

/-- A tag cannot occur in a string shorter than itself. -/
theorem firstOccur_short (tag s : Str) (htag : tag ≠ []) (h : s.length < tag.length) :
    firstOccur tag s = none := by
  cases hfo : firstOccur tag s with
  | none => rfl
  | some i =>
    have := firstOccur_some_le tag s i htag hfo
    omega

/-- The downward scan never exceeds its starting bound. -/
theorem psAux_le (s tag : Str) : ∀ k, psAux s tag k ≤ k := by
  intro k
  induction k with
  | zero => simp [psAux]
  | succ n ih =>
    rw [psAux]
    split
    · exact le_refl _
    · omega

/-- A positive scan result is an actual partial-suffix witness. -/
theorem psAux_suffix (s tag : Str) :
    ∀ k, psAux s tag k = 0 ∨ tag.take (psAux s tag k) <:+ s := by
  intro k
  induction k with
  | zero => simp [psAux]
  | succ n ih =>
    rw [psAux]
    split
    · next hsuf => exact Or.inr hsuf
    · exact ih

/-- The scan result is maximal among witnesses up to the bound. -/
theorem psAux_max (s tag : Str) :
    ∀ k m, psAux s tag k < m → m ≤ k → ¬ tag.take m <:+ s := by
  intro k
  induction k with
  | zero => intro m h1 h2; omega
  | succ n ih =>
    intro m h1 h2
    rw [psAux] at h1
    by_cases hsuf : tag.take (n + 1) <:+ s
    · rw [if_pos hsuf] at h1; omega
    · rw [if_neg hsuf] at h1
      rcases Nat.lt_or_ge n m with hnm | hnm
      · have : m = n + 1 := by omega
        exact this ▸ hsuf
      · exact ih m h1 hnm

/-- `partialSuffix` stays within the marker-minus-one / string-length
bound. -/
theorem partialSuffix_le (s tag : Str) :
    partialSuffix s tag ≤ min (tag.length - 1) s.length :=
  psAux_le s tag _

/-- A positive `partialSuffix` result is an actual suffix of `s` that
is a prefix of the tag. -/
theorem partialSuffix_suffix (s tag : Str) :
    partialSuffix s tag = 0 ∨ tag.take (partialSuffix s tag) <:+ s :=
  psAux_suffix s tag _

/-- `partialSuffix` is the longest such suffix. -/
theorem partialSuffix_max (s tag : Str) (m : Nat) (h1 : partialSuffix s tag < m)
    (h2 : m ≤ tag.length - 1) (h3 : m ≤ s.length) : ¬ tag.take m <:+ s :=
  psAux_max s tag _ m h1 (by omega)

/-- A suffix is recovered by dropping everything before it. -/
theorem suffix_drop_eq (u s : Str) (h : u <:+ s) :
    s.drop (s.length - u.length) = u := by
  obtain ⟨w, rfl⟩ := h
  rw [List.length_append, Nat.add_sub_cancel]
  exact List.drop_left w u

/-- The pending buffer kept by the filter's partial-match branch is
exactly `tag.take (partialSuffix s tag)`. -/
theorem partialSuffix_pending (s tag : Str) (htag : tag ≠ []) :
    s.drop (s.length - partialSuffix s tag) = tag.take (partialSuffix s tag) := by
  rcases partialSuffix_suffix s tag with h0 | hsuf
  · rw [h0]
    simp
  · have hlen : (tag.take (partialSuffix s tag)).length = partialSuffix s tag := by
      rw [List.length_take]
      have := partialSuffix_le s tag
      have : partialSuffix s tag ≤ tag.length := by omega
      omega
    have := suffix_drop_eq _ _ hsuf
    rwa [hlen] at this

/-- A prefix of an appended string that fits inside the left part is a
prefix of the left part. -/
theorem prefix_append_of_le (tag u v : Str) (h : tag <+: u ++ v)
    (hl : tag.length ≤ u.length) : tag <+: u := by
  have htake := List.prefix_iff_eq_take.mp h
  rw [List.take_append_eq_append_take, Nat.sub_eq_zero_of_le hl] at htake
  simp only [List.take_zero, List.append_nil] at htake
  exact htake ▸ List.take_prefix tag.length u

/-- The left part of an appended string is a prefix of anything at
least as long that the appended string starts with. -/
theorem left_prefix_of_append (tag u v : Str) (h : tag <+: u ++ v)
    (hl : u.length ≤ tag.length) : u <+: tag := by
  have htake := List.prefix_iff_eq_take.mp h
  have : tag.take u.length = u := by
    rw [htake, List.take_take, min_eq_left hl, List.take_left]
  exact this ▸ List.take_prefix u.length tag

/-- Among suffixes of a common string, the shorter is a suffix of the
longer. -/
theorem suffix_of_suffix_le (u w v : Str) (h1 : u <:+ v) (h2 : w <:+ v)
    (hl : w.length ≤ u.length) : w <:+ u := by
  have hu := suffix_drop_eq u v h1
  have hw := suffix_drop_eq w v h2
  have hul : u.length ≤ v.length := h1.length_le
  have hwl : w.length ≤ v.length := h2.length_le
  have h3 : (v.drop (v.length - u.length)).drop (u.length - w.length) =
      v.drop (v.length - w.length) := by
    rw [List.drop_drop]
    congr 1
    omega
  rw [hu] at h3
  have key : u.drop (u.length - w.length) = w := by rw [h3, hw]
  exact key ▸ List.drop_suffix _ u

/-- Appending on the right preserves being a suffix. -/
theorem suffix_append_right (p s t : Str) (h : p <:+ s) : p ++ t <:+ s ++ t := by
  obtain ⟨w, rfl⟩ := h
  exact ⟨w, (List.append_assoc w p t).symm⟩

/-- Taking within the left part of an append. -/
theorem take_append_of_le (u v : Str) (n : Nat) (h : n ≤ u.length) :
    (u ++ v).take n = u.take n := by
  rw [List.take_append_eq_append_take, Nat.sub_eq_zero_of_le h]
  simp

/-- Dropping within the left part of an append. -/
theorem drop_append_of_le (u v : Str) (n : Nat) (h : n ≤ u.length) :
    (u ++ v).drop n = u.drop n ++ v := by
  rw [List.drop_append_eq_append_drop, Nat.sub_eq_zero_of_le h]
  simp

/-- An occurrence inside `s` is still the first occurrence after
appending: any straddling occurrence would start later. -/
theorem firstOccur_append_some (tag s : Str) (i : Nat) (htag : tag ≠ [])
    (h : firstOccur tag s = some i) (t : Str) :
    firstOccur tag (s ++ t) = some i := by
  obtain ⟨hocc, hmin⟩ := firstOccur_some_spec tag s i h
  have hle := firstOccur_some_le tag s i htag h
  apply firstOccur_eq_some_of
  · rw [drop_append_of_le s t i (by omega)]
    exact hocc.trans (List.prefix_append _ _)
  · intro j hj hcon
    rw [drop_append_of_le s t j (by omega)] at hcon
    have : tag <+: s.drop j :=
      prefix_append_of_le tag (s.drop j) t hcon (by rw [List.length_drop]; omega)
    exact hmin j hj this

/-- No occurrence of the tag in `s ++ t` can start strictly before the
partial-suffix position of `s`, when `s` itself contains none. -/
theorem no_occurrence_before_pending (tag s t : Str) (htag : tag ≠ [])
    (hnone : firstOccur tag s = none) (q : Nat)
    (hq : q < s.length - partialSuffix s tag) :
    ¬ tag <+: (s ++ t).drop q := by
  intro hcon
  have hq' : q ≤ s.length := by omega
  rw [drop_append_of_le s t q hq'] at hcon
  by_cases hfit : q + tag.length ≤ s.length
  · have : tag <+: s.drop q :=
      prefix_append_of_le tag (s.drop q) t hcon (by rw [List.length_drop]; omega)
    exact firstOccur_none_spec tag s hnone q this
  · have hshort : (s.drop q).length ≤ tag.length := by
      rw [List.length_drop]; omega
    have hpre : s.drop q <+: tag := left_prefix_of_append tag (s.drop q) t hcon hshort
    have heq : s.drop q = tag.take (s.length - q) := by
      have := List.prefix_iff_eq_take.mp hpre
      rwa [List.length_drop] at this
    have hsuf : tag.take (s.length - q) <:+ s := heq ▸ List.drop_suffix q s
    have htaglen : 1 ≤ tag.length := by
      cases tag with
      | nil => exact absurd rfl htag
      | cons c cs => simp
    exact partialSuffix_max s tag (s.length - q) (by omega) (by omega) (by omega) hsuf

/-- When `s` contains no occurrence, searching `s ++ t` is searching
`pending ++ t` shifted by the emitted length. -/
theorem firstOccur_append_none (tag s t : Str) (htag : tag ≠ [])
    (hnone : firstOccur tag s = none) :
    firstOccur tag (s ++ t) =
      (firstOccur tag (s.drop (s.length - partialSuffix s tag) ++ t)).map
        (· + (s.length - partialSuffix s tag)) := by
  have hps := partialSuffix_le s tag
  have hl : s.length - partialSuffix s tag ≤ s.length := by omega
  have hsplit : s ++ t = s.take (s.length - partialSuffix s tag) ++
      (s.drop (s.length - partialSuffix s tag) ++ t) := by
    rw [← List.append_assoc, List.take_append_drop]
  have hhl : (s.take (s.length - partialSuffix s tag)).length =
      s.length - partialSuffix s tag := by
    rw [List.length_take]; omega
  cases hfo : firstOccur tag (s.drop (s.length - partialSuffix s tag) ++ t) with
  | some j =>
    obtain ⟨hocc, hmin⟩ := firstOccur_some_spec tag _ j hfo
    show firstOccur tag (s ++ t) = some (j + (s.length - partialSuffix s tag))
    apply firstOccur_eq_some_of
    · rw [hsplit, show j + (s.length - partialSuffix s tag) =
        (s.take (s.length - partialSuffix s tag)).length + j by omega, List.drop_append]
      exact hocc
    · intro q hq hcon
      by_cases hqlt : q < s.length - partialSuffix s tag
      · exact no_occurrence_before_pending tag s t htag hnone q hqlt hcon
      · have hq2 : q = (s.take (s.length - partialSuffix s tag)).length +
            (q - (s.length - partialSuffix s tag)) := by omega
        rw [hsplit, hq2, List.drop_append] at hcon
        exact hmin _ (by omega) hcon
  | none =>
    show firstOccur tag (s ++ t) = none
    cases hfo2 : firstOccur tag (s ++ t) with
    | none => rfl
    | some q =>
      obtain ⟨hocc, -⟩ := firstOccur_some_spec tag _ q hfo2
      by_cases hqlt : q < s.length - partialSuffix s tag
      · exact absurd hocc (no_occurrence_before_pending tag s t htag hnone q hqlt)
      · have hq2 : q = (s.take (s.length - partialSuffix s tag)).length +
            (q - (s.length - partialSuffix s tag)) := by omega
        rw [hsplit, hq2, List.drop_append] at hocc
        exact absurd hocc (firstOccur_none_spec tag _ hfo _)

/-- When neither `s` nor `pending ++ t` contains the tag, the partial
suffix of `s ++ t` is that of `pending ++ t`. -/
theorem partialSuffix_append_pending (tag s t : Str) (htag : tag ≠ [])
    (hnone : firstOccur tag s = none)
    (hnone2 : firstOccur tag (s.drop (s.length - partialSuffix s tag) ++ t) = none) :
    partialSuffix (s ++ t) tag =
      partialSuffix (s.drop (s.length - partialSuffix s tag) ++ t) tag := by
  have htaglen : 1 ≤ tag.length := by
    cases tag with
    | nil => exact absurd rfl htag
    | cons c cs => simp
  have hps := partialSuffix_le s tag
  have hp : s.drop (s.length - partialSuffix s tag) <:+ s := List.drop_suffix _ s
  have hplen : (s.drop (s.length - partialSuffix s tag)).length = partialSuffix s tag := by
    rw [List.length_drop]; omega
  have hpt : s.drop (s.length - partialSuffix s tag) ++ t <:+ s ++ t :=
    suffix_append_right _ s t hp
  have hm1 := partialSuffix_le (s ++ t) tag
  have hm2 := partialSuffix_le (s.drop (s.length - partialSuffix s tag) ++ t) tag
  rw [List.length_append] at hm1
  rw [List.length_append, hplen] at hm2
  apply le_antisymm
  · by_contra hlt
    push_neg at hlt
    rcases partialSuffix_suffix (s ++ t) tag with h0 | hsuf
    · omega
    · set m1 := partialSuffix (s ++ t) tag with hm1def
      have htk : (tag.take m1).length = m1 := by
        rw [List.length_take]; omega
      by_cases hfits : m1 ≤ partialSuffix s tag + t.length
      · have : tag.take m1 <:+ s.drop (s.length - partialSuffix s tag) ++ t := by
          apply suffix_of_suffix_le _ _ (s ++ t) hpt hsuf
          rw [htk, List.length_append, hplen]
          exact hfits
        exact partialSuffix_max _ tag m1 hlt (by omega)
          (by rw [List.length_append, hplen]; omega) this
      · have hq : (s ++ t).length - m1 ≤ s.length := by
          rw [List.length_append]; omega
        have heq := suffix_drop_eq (tag.take m1) (s ++ t) hsuf
        rw [htk] at heq
        rw [drop_append_of_le s t _ (by rw [List.length_append]; omega)] at heq
        have hpre : s.drop ((s ++ t).length - m1) <+: tag :=
          (heq ▸ List.prefix_append (s.drop ((s ++ t).length - m1)) t).trans
            (List.take_prefix m1 tag)
        have hdlen : (s.drop ((s ++ t).length - m1)).length = m1 - t.length := by
          rw [List.length_drop, List.length_append]
          omega
        have heq2 : s.drop ((s ++ t).length - m1) = tag.take (m1 - t.length) := by
          have := List.prefix_iff_eq_take.mp hpre
          rwa [hdlen] at this
        have hsuf2 : tag.take (m1 - t.length) <:+ s := heq2 ▸ List.drop_suffix _ s
        exact partialSuffix_max s tag (m1 - t.length) (by omega) (by omega)
          (by omega) hsuf2
  · by_contra hlt
    push_neg at hlt
    rcases partialSuffix_suffix (s.drop (s.length - partialSuffix s tag) ++ t) tag with h0 | hsuf
    · omega
    · set m2 := partialSuffix (s.drop (s.length - partialSuffix s tag) ++ t) tag with hm2def
      have : tag.take m2 <:+ s ++ t := hsuf.trans hpt
      exact partialSuffix_max (s ++ t) tag m2 hlt (by omega)
        (by rw [List.length_append]; omega) this

/-! ## ThinkFilter: unfolding the drain loop -/

/-- Loop step, inactive mode, full `"<think>"` match found. -/
theorem tfRun_false_some (s : Str) (i : Nat) (h : firstOccur thinkOpen s = some i) :
    tfRun false s =
      ⟨s.take i ++ (tfRun true (s.drop (i + thinkOpen.length))).vis,
       (tfRun true (s.drop (i + thinkOpen.length))).thk,
       (tfRun true (s.drop (i + thinkOpen.length))).active,
       (tfRun true (s.drop (i + thinkOpen.length))).pending⟩ := by
  rw [tfRun, h]

/-- Loop exit, inactive mode, no full match: emit everything but the
longest partial `"<think>"` suffix, which stays pending. -/
theorem tfRun_false_none (s : Str) (h : firstOccur thinkOpen s = none) :
    tfRun false s =
      ⟨s.take (s.length - partialSuffix s thinkOpen), [], false,
       s.drop (s.length - partialSuffix s thinkOpen)⟩ := by
  rw [tfRun, h]

/-- Loop step, active mode, full `"</think>"` match found. -/
theorem tfRun_true_some (s : Str) (i : Nat) (h : firstOccur thinkClose s = some i) :
    tfRun true s =
      ⟨(tfRun false (s.drop (i + thinkClose.length))).vis,
       s.take i ++ (tfRun false (s.drop (i + thinkClose.length))).thk,
       (tfRun false (s.drop (i + thinkClose.length))).active,
       (tfRun false (s.drop (i + thinkClose.length))).pending⟩ := by
  conv_lhs => rw [tfRun]
  rw [h]

/-- Loop exit, active mode, no full match. -/
theorem tfRun_true_none (s : Str) (h : firstOccur thinkClose s = none) :
    tfRun true s =
      ⟨[], s.take (s.length - partialSuffix s thinkClose), true,
       s.drop (s.length - partialSuffix s thinkClose)⟩ := by
  conv_lhs => rw [tfRun]
  rw [h]

/-- Draining an empty buffer does nothing. -/
theorem tfRun_nil (a : Bool) : tfRun a [] = ⟨[], [], a, []⟩ := by
  cases a
  · rw [tfRun_false_none [] (firstOccur_nil thinkOpen (by decide))]
    rfl
  · rw [tfRun_true_none [] (firstOccur_nil thinkClose (by decide))]
    rfl

/-- Draining `s ++ t` is draining `s` and then draining the leftover
pending buffer extended by `t`: the filter loop is compositional over
buffer boundaries. -/
theorem tfRun_append_bounded :
    ∀ (N : Nat) (s : Str), s.length ≤ N → ∀ (a : Bool) (t : Str),
      tfRun a (s ++ t) =
        ⟨(tfRun a s).vis ++ (tfRun (tfRun a s).active ((tfRun a s).pending ++ t)).vis,
         (tfRun a s).thk ++ (tfRun (tfRun a s).active ((tfRun a s).pending ++ t)).thk,
         (tfRun (tfRun a s).active ((tfRun a s).pending ++ t)).active,
         (tfRun (tfRun a s).active ((tfRun a s).pending ++ t)).pending⟩ := by
  intro N
  induction N with
  | zero =>
    intro s hs a t
    have hnil : s = [] := List.eq_nil_of_length_eq_zero (by omega)
    subst hnil
    rw [tfRun_nil]
    simp
  | succ N ih =>
    intro s hs a t
    cases a
    case false =>
      cases hfo : firstOccur thinkOpen s with
      | some i =>
        have hle := firstOccur_some_le thinkOpen s i (by decide) hfo
        have hopen : thinkOpen.length = 7 := rfl
        have hsne : s ≠ [] := by
          intro he; subst he
          rw [firstOccur_nil thinkOpen (by decide)] at hfo
          simp at hfo
        have hslen : 0 < s.length := List.length_pos.mpr hsne
        rw [tfRun_false_some (s ++ t) i (firstOccur_append_some thinkOpen s i (by decide) hfo t),
          tfRun_false_some s i hfo]
        rw [take_append_of_le s t i (by omega),
          drop_append_of_le s t (i + thinkOpen.length) (by omega)]
        rw [ih (s.drop (i + thinkOpen.length)) (by rw [List.length_drop]; omega) true t]
        simp [List.append_assoc]
      | none =>
        have hps := partialSuffix_le s thinkOpen
        have hplen : (s.drop (s.length - partialSuffix s thinkOpen)).length =
            partialSuffix s thinkOpen := by
          rw [List.length_drop]; omega
        have hhl : (s.take (s.length - partialSuffix s thinkOpen)).length =
            s.length - partialSuffix s thinkOpen := by
          rw [List.length_take]; omega
        have hsplit : s ++ t = s.take (s.length - partialSuffix s thinkOpen) ++
            (s.drop (s.length - partialSuffix s thinkOpen) ++ t) := by
          rw [← List.append_assoc, List.take_append_drop]
        rw [tfRun_false_none s hfo]
        have hmap := firstOccur_append_none thinkOpen s t (by decide) hfo
        cases hfo2 : firstOccur thinkOpen
            (s.drop (s.length - partialSuffix s thinkOpen) ++ t) with
        | some j =>
          rw [hfo2] at hmap
          rw [tfRun_false_some (s ++ t) (j + (s.length - partialSuffix s thinkOpen))
            (by simpa using hmap)]
          rw [tfRun_false_some _ j hfo2]
          have hA : (s ++ t).take (j + (s.length - partialSuffix s thinkOpen)) =
              s.take (s.length - partialSuffix s thinkOpen) ++
                (s.drop (s.length - partialSuffix s thinkOpen) ++ t).take j := by
            rw [hsplit, show j + (s.length - partialSuffix s thinkOpen) =
              (s.take (s.length - partialSuffix s thinkOpen)).length + j by rw [hhl]; omega,
              List.take_append]
          have hB : (s ++ t).drop (j + (s.length - partialSuffix s thinkOpen) +
              thinkOpen.length) =
              (s.drop (s.length - partialSuffix s thinkOpen) ++ t).drop
                (j + thinkOpen.length) := by
            rw [hsplit, show j + (s.length - partialSuffix s thinkOpen) + thinkOpen.length =
              (s.take (s.length - partialSuffix s thinkOpen)).length +
                (j + thinkOpen.length) by rw [hhl]; omega,
              List.drop_append]
          rw [hA, hB]
          simp [List.append_assoc]
        | none =>
          rw [hfo2] at hmap
          rw [tfRun_false_none (s ++ t) (by simpa using hmap)]
          rw [tfRun_false_none _ hfo2]
          have hpse := partialSuffix_append_pending thinkOpen s t (by decide) hfo hfo2
          have hm2 := partialSuffix_le
            (s.drop (s.length - partialSuffix s thinkOpen) ++ t) thinkOpen
          rw [List.length_append, hplen] at hm2
          have hidx : (s ++ t).length - partialSuffix (s ++ t) thinkOpen =
              (s.take (s.length - partialSuffix s thinkOpen)).length +
                ((s.drop (s.length - partialSuffix s thinkOpen) ++ t).length -
                  partialSuffix (s.drop (s.length - partialSuffix s thinkOpen) ++ t)
                    thinkOpen) := by
            rw [hpse, hhl, List.length_append, List.length_append, hplen]
            omega
          rw [hidx, hsplit, List.take_append, List.drop_append]
          simp
    case true =>
      cases hfo : firstOccur thinkClose s with
      | some i =>
        have hle := firstOccur_some_le thinkClose s i (by decide) hfo
        have hclose : thinkClose.length = 8 := rfl
        have hsne : s ≠ [] := by
          intro he; subst he
          rw [firstOccur_nil thinkClose (by decide)] at hfo
          simp at hfo
        have hslen : 0 < s.length := List.length_pos.mpr hsne
        rw [tfRun_true_some (s ++ t) i (firstOccur_append_some thinkClose s i (by decide) hfo t),
          tfRun_true_some s i hfo]
        rw [take_append_of_le s t i (by omega),
          drop_append_of_le s t (i + thinkClose.length) (by omega)]
        rw [ih (s.drop (i + thinkClose.length)) (by rw [List.length_drop]; omega) false t]
        simp [List.append_assoc]
      | none =>
        have hps := partialSuffix_le s thinkClose
        have hplen : (s.drop (s.length - partialSuffix s thinkClose)).length =
            partialSuffix s thinkClose := by
          rw [List.length_drop]; omega
        have hhl : (s.take (s.length - partialSuffix s thinkClose)).length =
            s.length - partialSuffix s thinkClose := by
          rw [List.length_take]; omega
        have hsplit : s ++ t = s.take (s.length - partialSuffix s thinkClose) ++
            (s.drop (s.length - partialSuffix s thinkClose) ++ t) := by
          rw [← List.append_assoc, List.take_append_drop]
        rw [tfRun_true_none s hfo]
        have hmap := firstOccur_append_none thinkClose s t (by decide) hfo
        cases hfo2 : firstOccur thinkClose
            (s.drop (s.length - partialSuffix s thinkClose) ++ t) with
        | some j =>
          rw [hfo2] at hmap
          rw [tfRun_true_some (s ++ t) (j + (s.length - partialSuffix s thinkClose))
            (by simpa using hmap)]
          rw [tfRun_true_some _ j hfo2]
          have hA : (s ++ t).take (j + (s.length - partialSuffix s thinkClose)) =
              s.take (s.length - partialSuffix s thinkClose) ++
                (s.drop (s.length - partialSuffix s thinkClose) ++ t).take j := by
            rw [hsplit, show j + (s.length - partialSuffix s thinkClose) =
              (s.take (s.length - partialSuffix s thinkClose)).length + j by rw [hhl]; omega,
              List.take_append]
          have hB : (s ++ t).drop (j + (s.length - partialSuffix s thinkClose) +
              thinkClose.length) =
              (s.drop (s.length - partialSuffix s thinkClose) ++ t).drop
                (j + thinkClose.length) := by
            rw [hsplit, show j + (s.length - partialSuffix s thinkClose) + thinkClose.length =
              (s.take (s.length - partialSuffix s thinkClose)).length +
                (j + thinkClose.length) by rw [hhl]; omega,
              List.drop_append]
          rw [hA, hB]
          simp [List.append_assoc]
        | none =>
          rw [hfo2] at hmap
          rw [tfRun_true_none (s ++ t) (by simpa using hmap)]
          rw [tfRun_true_none _ hfo2]
          have hpse := partialSuffix_append_pending thinkClose s t (by decide) hfo hfo2
          have hm2 := partialSuffix_le
            (s.drop (s.length - partialSuffix s thinkClose) ++ t) thinkClose
          rw [List.length_append, hplen] at hm2
          have hidx : (s ++ t).length - partialSuffix (s ++ t) thinkClose =
              (s.take (s.length - partialSuffix s thinkClose)).length +
                ((s.drop (s.length - partialSuffix s thinkClose) ++ t).length -
                  partialSuffix (s.drop (s.length - partialSuffix s thinkClose) ++ t)
                    thinkClose) := by
            rw [hpse, hhl, List.length_append, List.length_append, hplen]
            omega
          rw [hidx, hsplit, List.take_append, List.drop_append]
          simp

/-- The drained state is always a proper marker prefix of the current
mode's marker. -/
theorem tfRun_good :
    ∀ (N : Nat) (s : Str), s.length ≤ N → ∀ (a : Bool),
      ∃ n, n < (if (tfRun a s).active then thinkClose else thinkOpen).length ∧
        (tfRun a s).pending = (if (tfRun a s).active then thinkClose else thinkOpen).take n := by
  intro N
  induction N with
  | zero =>
    intro s hs a
    have hnil : s = [] := List.eq_nil_of_length_eq_zero (by omega)
    subst hnil
    rw [tfRun_nil]
    refine ⟨0, ?_, by cases a <;> rfl⟩
    cases a <;> decide
  | succ N ih =>
    intro s hs a
    cases a
    case false =>
      cases hfo : firstOccur thinkOpen s with
      | some i =>
        have hle := firstOccur_some_le thinkOpen s i (by decide) hfo
        have hsne : s ≠ [] := by
          intro he; subst he
          rw [firstOccur_nil thinkOpen (by decide)] at hfo
          simp at hfo
        have hslen : 0 < s.length := List.length_pos.mpr hsne
        have h7 : thinkOpen.length = 7 := rfl
        rw [tfRun_false_some s i hfo]
        exact ih (s.drop (i + thinkOpen.length)) (by rw [List.length_drop]; omega) true
      | none =>
        rw [tfRun_false_none s hfo]
        refine ⟨partialSuffix s thinkOpen, ?_, ?_⟩
        · show partialSuffix s thinkOpen < thinkOpen.length
          have := partialSuffix_le s thinkOpen
          have h7 : thinkOpen.length = 7 := rfl
          omega
        · exact partialSuffix_pending s thinkOpen (by decide)
    case true =>
      cases hfo : firstOccur thinkClose s with
      | some i =>
        have hle := firstOccur_some_le thinkClose s i (by decide) hfo
        have hsne : s ≠ [] := by
          intro he; subst he
          rw [firstOccur_nil thinkClose (by decide)] at hfo
          simp at hfo
        have hslen : 0 < s.length := List.length_pos.mpr hsne
        have h8 : thinkClose.length = 8 := rfl
        rw [tfRun_true_some s i hfo]
        exact ih (s.drop (i + thinkClose.length)) (by rw [List.length_drop]; omega) false
      | none =>
        rw [tfRun_true_none s hfo]
        refine ⟨partialSuffix s thinkClose, ?_, ?_⟩
        · show partialSuffix s thinkClose < thinkClose.length
          have := partialSuffix_le s thinkClose
          have h8 : thinkClose.length = 8 := rfl
          omega
        · exact partialSuffix_pending s thinkClose (by decide)

/-- Every state `process` leaves behind is reachable-good. -/
theorem process_good (f : thinkFilter) (chunk : Str) : GoodState (process f chunk).1 :=
  tfRun_good (f.pending ++ chunk).length (f.pending ++ chunk) le_rfl f.active

/-- The partial suffix of a proper prefix of the tag against the tag
is the whole prefix. -/
theorem partialSuffix_take (tag : Str) (n : Nat) (hn : n < tag.length) :
    partialSuffix (tag.take n) tag = n := by
  have hlen : (tag.take n).length = n := by rw [List.length_take]; omega
  have hle := partialSuffix_le (tag.take n) tag
  rw [hlen] at hle
  rcases Nat.lt_or_ge (partialSuffix (tag.take n) tag) n with hlt | hge
  · exfalso
    exact partialSuffix_max (tag.take n) tag n hlt (by omega) (by rw [hlen])
      (List.suffix_refl _)
  · omega

/-- `process` on an empty chunk leaves a good state untouched and
emits nothing: the pending buffer cannot contain a full marker. -/
theorem process_pending_noop (f : thinkFilter) (h : GoodState f) :
    process f [] = (f, [], []) := by
  obtain ⟨n, hn, hp⟩ := h
  cases f with
  | mk active pending =>
    cases active
    · simp at hn hp
      subst hp
      have h7 : thinkOpen.length = 7 := rfl
      have hlen : (thinkOpen.take n).length = n := by rw [List.length_take]; omega
      have hfos : firstOccur thinkOpen (thinkOpen.take n) = none :=
        firstOccur_short thinkOpen (thinkOpen.take n) (by decide) (by omega)
      show (⟨(tfRun false (thinkOpen.take n ++ [])).active,
             (tfRun false (thinkOpen.take n ++ [])).pending⟩,
            (tfRun false (thinkOpen.take n ++ [])).vis,
            (tfRun false (thinkOpen.take n ++ [])).thk) =
        ((⟨false, thinkOpen.take n⟩ : thinkFilter), ([] : Str), ([] : Str))
      rw [List.append_nil, tfRun_false_none _ hfos, partialSuffix_take thinkOpen n hn, hlen]
      simp
    · simp at hn hp
      subst hp
      have h8 : thinkClose.length = 8 := rfl
      have hlen : (thinkClose.take n).length = n := by rw [List.length_take]; omega
      have hfos : firstOccur thinkClose (thinkClose.take n) = none :=
        firstOccur_short thinkClose (thinkClose.take n) (by decide) (by omega)
      show (⟨(tfRun true (thinkClose.take n ++ [])).active,
             (tfRun true (thinkClose.take n ++ [])).pending⟩,
            (tfRun true (thinkClose.take n ++ [])).vis,
            (tfRun true (thinkClose.take n ++ [])).thk) =
        ((⟨true, thinkClose.take n⟩ : thinkFilter), ([] : Str), ([] : Str))
      rw [List.append_nil, tfRun_true_none _ hfos, partialSuffix_take thinkClose n hn, hlen]
      simp

/-- `process` over a concatenation is `process` twice, outputs
concatenated. -/
theorem process_append (f : thinkFilter) (c d : Str) :
    process f (c ++ d) =
      ((process (process f c).1 d).1,
       (process f c).2.1 ++ (process (process f c).1 d).2.1,
       (process f c).2.2 ++ (process (process f c).1 d).2.2) := by
  unfold process
  rw [show f.pending ++ (c ++ d) = (f.pending ++ c) ++ d from (List.append_assoc _ _ _).symm]
  rw [tfRun_append_bounded (f.pending ++ c).length (f.pending ++ c) le_rfl f.active d]

/-- Chunk-by-chunk processing plus flush emits the same visible text
as processing the joined text in one call plus flush. -/
theorem processAll_flush_eq (cs : List Str) :
    ∀ (f : thinkFilter), GoodState f →
      (processAll f cs).2.1 ++ (flush (processAll f cs).1).1 =
        (process f cs.join).2.1 ++ (flush (process f cs.join).1).1 := by
  induction cs with
  | nil =>
    intro f hf
    rw [show (List.join ([] : List Str)) = [] from rfl, process_pending_noop f hf]
    rfl
  | cons c cs ih =>
    intro f hf
    have hg : GoodState (process f c).1 := process_good f c
    show ((process f c).2.1 ++ (processAll (process f c).1 cs).2.1) ++
        (flush (processAll (process f c).1 cs).1).1 =
      (process f ((c :: cs).join)).2.1 ++ (flush (process f ((c :: cs).join)).1).1
    rw [show (c :: cs).join = c ++ cs.join from rfl, process_append f c cs.join]
    show ((process f c).2.1 ++ (processAll (process f c).1 cs).2.1) ++
        (flush (processAll (process f c).1 cs).1).1 =
      ((process f c).2.1 ++ (process (process f c).1 cs.join).2.1) ++
        (flush (process (process f c).1 cs.join).1).1
    rw [List.append_assoc, List.append_assoc]
    exact congrArg (fun x => (process f c).2.1 ++ x) (ih (process f c).1 hg)

/-- C4: for every partition of a text into contiguous chunks, feeding
the chunks one by one through `thinkFilter.process` followed by
`flush` produces exactly the same visible (`writeContent`) string, in
the same order, as feeding the whole text in a single `process` call
followed by `flush`. -/
theorem thinkFilter_chunking_invariant (chunks : List Str) :
    visibleChunked chunks = visibleWhole chunks.join := by
  have hg : GoodState initFilter := ⟨0, by decide, rfl⟩
  exact processAll_flush_eq chunks initFilter hg

/-- C10: after every `process` call, the pending buffer holds at most
7 bytes and is a strict proper prefix of one of the two markers, so
the filter's lookahead memory is bounded by the marker length. -/
theorem thinkFilter_pending_bounded (f : thinkFilter) (chunk : Str) :
    (process f chunk).1.pending.length ≤ 7 ∧
      (((process f chunk).1.pending <+: thinkOpen ∧
          (process f chunk).1.pending ≠ thinkOpen) ∨
       ((process f chunk).1.pending <+: thinkClose ∧
          (process f chunk).1.pending ≠ thinkClose)) := by
  obtain ⟨n, hn, hp⟩ := process_good f chunk
  cases hact : (process f chunk).1.active
  · rw [hact] at hn hp
    simp at hn hp
    have h7 : thinkOpen.length = 7 := rfl
    constructor
    · rw [hp, List.length_take]; omega
    · left
      refine ⟨hp ▸ List.take_prefix n thinkOpen, ?_⟩
      rw [hp]
      intro he
      have := congrArg List.length he
      rw [List.length_take] at this
      omega
  · rw [hact] at hn hp
    simp at hn hp
    have h8 : thinkClose.length = 8 := rfl
    constructor
    · rw [hp, List.length_take]; omega
    · right
      refine ⟨hp ▸ List.take_prefix n thinkClose, ?_⟩
      rw [hp]
      intro he
      have := congrArg List.length he
      rw [List.length_take] at this
      omega

/-! ## The tool-calling loops (C1, C2, C6, C7) -/

/-- Well-formed conversations concatenate. -/
theorem WfConv.append (l1 l2 : List Message) (h1 : WfConv l1) (h2 : WfConv l2) :
    WfConv (l1 ++ l2) := by
  induction h1 with
  | nil => simpa using h2
  | plain m rest h hr ih =>
    rw [List.cons_append]
    exact WfConv.plain m _ h ih
  | block m contents rest hrole hne hlen hr ih =>
    have := WfConv.block m contents (rest ++ l2) hrole hne hlen ih
    simpa [List.append_assoc] using this

/-- Mapping tool calls to their reply messages is zipping them with
their contents. -/
theorem map_toolMsgs_zip (role : Str) (tcs : List ToolCall) (g : ToolCall → Str) :
    tcs.map (fun tc => Message.mk role (g tc) [] tc.id) =
      List.zipWith (fun tc c => Message.mk role c [] tc.id) tcs (tcs.map g) := by
  induction tcs with
  | nil => rfl
  | cons tc tcs ih =>
    simp only [List.map_cons, List.zipWith_cons_cons]
    rw [ih]

/-- Appending one round's block (assistant message plus one tool reply
per call, in call order) preserves well-formedness. -/
theorem WfConv.round (msgs : List Message) (h : WfConv msgs) (content : Str)
    (tcs : List ToolCall) (hne : tcs ≠ []) (g : ToolCall → Str) :
    WfConv (msgs ++ [⟨"assistant".toList, content, tcs, []⟩] ++
      tcs.map (fun tc => Message.mk "tool".toList (g tc) [] tc.id)) := by
  rw [List.append_assoc]
  refine WfConv.append _ _ h ?_
  rw [map_toolMsgs_zip "tool".toList tcs g]
  have hblock := WfConv.block ⟨"assistant".toList, content, tcs, []⟩ (tcs.map g) []
    rfl hne (by simp) WfConv.nil
  simpa using hblock

/-- C2: every conversation either loop sends to the model is
well-formed: each assistant message with tool calls is immediately
followed by exactly one tool-role message per call, in call order,
with the call id echoed unchanged and nothing interleaved. -/
theorem conversation_blocks (model : List Message → Bool → StreamResult)
    (execTool : Str → Str → Except Str Str) (cl mt cap outputLimit : Int) :
    (∀ (rounds : Nat) (msgs : List Message), WfConv msgs →
      ∀ r ∈ (doSubAgentWithTools model execTool cl mt cap rounds msgs).1, WfConv r.msgs) ∧
    (∀ (fuel : Nat) (msgs : List Message), WfConv msgs →
      ∀ r ∈ (runQuery model execTool outputLimit fuel msgs).1, WfConv r.msgs) := by
  constructor
  · intro rounds
    induction rounds with
    | zero =>
      intro msgs hw r hr
      simp only [doSubAgentWithTools] at hr
      rw [List.mem_singleton] at hr
      subst hr
      exact hw
    | succ n ih =>
      intro msgs hw r hr
      simp only [doSubAgentWithTools] at hr
      by_cases htc : (model msgs true).toolCalls = []
      · rw [if_pos htc] at hr
        rw [List.mem_singleton] at hr
        subst hr
        exact hw
      · rw [if_neg htc] at hr
        rcases List.mem_cons.mp hr with h | h
        · subst h; exact hw
        · exact ih _ (WfConv.round msgs hw (model msgs true).content
            (model msgs true).toolCalls htc _) r h
  · intro fuel
    induction fuel with
    | zero =>
      intro msgs hw r hr
      simp only [runQuery] at hr
      simp at hr
    | succ n ih =>
      intro msgs hw r hr
      simp only [runQuery] at hr
      by_cases htc : (model msgs true).toolCalls = []
      · rw [if_pos htc] at hr
        rw [List.mem_singleton] at hr
        subst hr
        exact hw
      · rw [if_neg htc] at hr
        rcases List.mem_cons.mp hr with h | h
        · subst h; exact hw
        · exact ih _ (WfConv.round msgs hw (model msgs true).content
            (model msgs true).toolCalls htc _) r h

/-- Witness for `conversation_blocks`: the demo two-message
conversation stays well-formed across a one-round sub-agent run. -/
theorem conversation_blocks_witness :
    WfConv demoMsgs ∧
    (∀ r ∈ (doSubAgentWithTools alwaysToolModel okExec 0 1000 0 1 demoMsgs).1,
      WfConv r.msgs) := by
  have hwf : WfConv demoMsgs :=
    WfConv.plain _ _ rfl (WfConv.plain _ _ rfl WfConv.nil)
  exact ⟨hwf, (conversation_blocks alwaysToolModel okExec 0 1000 0 500).1 1 demoMsgs hwf⟩

/-- C6 (amended): in the sub-agent loop, *every* model request — each
round's and the forced-final one — is issued with
`capMaxTokens(contextLimit, maxTokens, current messages)`.  (The
top-level `runQuery` loop, by contrast, never calls `capMaxTokens`;
see the counterexample.) -/
theorem subAgent_requests_capped (model : List Message → Bool → StreamResult)
    (execTool : Str → Str → Except Str Str) (cl mt cap : Int) :
    ∀ (rounds : Nat) (msgs : List Message),
      ∀ r ∈ (doSubAgentWithTools model execTool cl mt cap rounds msgs).1,
        r.maxTokens = capMaxTokens cl mt r.msgs := by
  intro rounds
  induction rounds with
  | zero =>
    intro msgs r hr
    simp only [doSubAgentWithTools] at hr
    rw [List.mem_singleton] at hr
    subst hr
    rfl
  | succ n ih =>
    intro msgs r hr
    simp only [doSubAgentWithTools] at hr
    by_cases htc : (model msgs true).toolCalls = []
    · rw [if_pos htc] at hr
      rw [List.mem_singleton] at hr
      subst hr
      rfl
    · rw [if_neg htc] at hr
      rcases List.mem_cons.mp hr with h | h
      · subst h; rfl
      · exact ih _ r h

/-- Witness for `subAgent_requests_capped` at a concrete run. -/
theorem subAgent_requests_capped_witness :
    subDemoReq0 ∈ (doSubAgentWithTools alwaysToolModel errExec 0 1000 5 1 demoMsgs).1 ∧
    subDemoReq0.maxTokens = capMaxTokens 0 1000 subDemoReq0.msgs :=
  ⟨by decide,
   subAgent_requests_capped alwaysToolModel errExec 0 1000 5 1 demoMsgs subDemoReq0
     (by decide)⟩

/-- C6 counterexample: the top-level `runQuery` loop issues its
second-round request (whose conversation has grown by a 3000-byte
assistant turn) with the fixed configured output size 500, although
`capMaxTokens` for a 1000-token context window would demand 256. -/
theorem runQuery_not_capped :
    (runQuery bigModel okExec 500 2 demoMsgs).1.get? 1 = some ⟨bigRound1Msgs, true, 500⟩ ∧
    capMaxTokens 1000 500 bigRound1Msgs = 256 ∧
    (500 : Int) ≠ 256 := by
  refine ⟨?_, ?_, by decide⟩
  · rfl
  · have hest : estimateTokens bigRound1Msgs = 1076 := by
      simp only [bigRound1Msgs, demoToolCall, estimateTokens, List.foldl_cons,
        List.foldl_nil, List.length_replicate]
      decide
    simp only [capMaxTokens, hest]
    norm_num

/-- C1 (amended): the sub-agent loop against a model that requests a
tool call on every offered turn performs exactly `maxRounds`
tool-carrying requests, then issues exactly one more request with the
tool-set removed and returns that request's visible (think-stripped)
text. -/
theorem subAgent_round_limit (model : List Message → Bool → StreamResult)
    (execTool : Str → Str → Except Str Str) (cl mt cap : Int)
    (h : ∀ ms, (model ms true).toolCalls ≠ []) :
    ∀ (rounds : Nat) (msgs : List Message),
      ∃ reqs final,
        (doSubAgentWithTools model execTool cl mt cap rounds msgs).1 = reqs ++ [final] ∧
        reqs.length = rounds ∧
        (∀ r ∈ reqs, r.withTools = true) ∧
        final.withTools = false ∧
        (doSubAgentWithTools model execTool cl mt cap rounds msgs).2 =
          stripThinkTags (model final.msgs false).content := by
  intro rounds
  induction rounds with
  | zero =>
    intro msgs
    exact ⟨[], ⟨msgs, false, capMaxTokens cl mt msgs⟩, rfl, rfl, by simp, rfl, rfl⟩
  | succ n ih =>
    intro msgs
    obtain ⟨reqs, final, h1, h2, h3, h4, h5⟩ := ih (msgs ++
      [{ role := "assistant".toList, content := (model msgs true).content,
         toolCalls := (model msgs true).toolCalls, toolCallID := [] }] ++
      (model msgs true).toolCalls.map (fun tc =>
        { role := "tool".toList,
          content := toolResultContent cap
            (execTool tc.function.name tc.function.arguments),
          toolCalls := [], toolCallID := tc.id }))
    refine ⟨⟨msgs, true, capMaxTokens cl mt msgs⟩ :: reqs, final, ?_, ?_, ?_, h4, ?_⟩
    · simp only [doSubAgentWithTools]
      rw [if_neg (h msgs), h1]
      rfl
    · simp [h2]
    · intro r hr
      rcases List.mem_cons.mp hr with hh | hh
      · subst hh; rfl
      · exact h3 r hh
    · simp only [doSubAgentWithTools]
      rw [if_neg (h msgs)]
      exact h5

/-- Witness for `subAgent_round_limit`: two rounds against the
always-tool stub. -/
theorem subAgent_round_limit_witness :
    (∀ ms, (alwaysToolModel ms true).toolCalls ≠ []) ∧
    (∃ reqs final,
      (doSubAgentWithTools alwaysToolModel okExec 0 1000 0 2 demoMsgs).1 =
        reqs ++ [final] ∧
      reqs.length = 2 ∧
      (∀ r ∈ reqs, r.withTools = true) ∧
      final.withTools = false ∧
      (doSubAgentWithTools alwaysToolModel okExec 0 1000 0 2 demoMsgs).2 =
        stripThinkTags (alwaysToolModel final.msgs false).content) :=
  ⟨fun ms => by simp [alwaysToolModel],
   subAgent_round_limit alwaysToolModel okExec 0 1000 0
     (fun ms => by simp [alwaysToolModel]) 2 demoMsgs⟩

/-- C1 counterexample: the top-level `runQuery` loop has no round
limit.  Against the always-tool model it has, after 12 rounds, issued
12 requests — every one of them still carrying the tool-set — and
produced no answer; no forced tool-less final request ever happens, so
it cycles indefinitely. -/
theorem runQuery_no_round_limit :
    (runQuery alwaysToolModel okExec 500 12 demoMsgs).2 = none ∧
    (runQuery alwaysToolModel okExec 500 12 demoMsgs).1.length = 12 ∧
    (runQuery alwaysToolModel okExec 500 12 demoMsgs).1.all
      (fun r => r.withTools) = true := by
  refine ⟨by decide, by decide, by decide⟩

/-- For any fuel, `runQuery` against the always-tool model consumes
all of it without terminating: the divergence behind the
counterexample. -/
theorem runQuery_always_tools_diverges :
    ∀ (fuel : Nat) (msgs : List Message),
      (runQuery alwaysToolModel okExec 500 fuel msgs).2 = none ∧
      (runQuery alwaysToolModel okExec 500 fuel msgs).1.length = fuel := by
  intro fuel
  induction fuel with
  | zero => intro msgs; exact ⟨rfl, rfl⟩
  | succ n ih =>
    intro msgs
    have htc : ¬ (alwaysToolModel msgs true).toolCalls = [] := by simp [alwaysToolModel]
    constructor
    · simp only [runQuery]
      rw [if_neg htc]
      exact (ih _).1
    · simp only [runQuery]
      rw [if_neg htc]
      simp [(ih _).2]

/-- The first request of a sub-agent run is always on the starting
conversation, with the capped token budget. -/
theorem subAgent_head (model : List Message → Bool → StreamResult)
    (execTool : Str → Str → Except Str Str) (cl mt cap : Int)
    (rounds : Nat) (msgs : List Message) :
    ∃ b, (doSubAgentWithTools model execTool cl mt cap rounds msgs).1.get? 0 =
      some ⟨msgs, b, capMaxTokens cl mt msgs⟩ := by
  cases rounds with
  | zero => exact ⟨false, rfl⟩
  | succ n =>
    by_cases htc : (model msgs true).toolCalls = []
    · refine ⟨true, ?_⟩
      simp only [doSubAgentWithTools]
      rw [if_pos htc]
      rfl
    · refine ⟨true, ?_⟩
      simp only [doSubAgentWithTools]
      rw [if_neg htc]
      rfl

/-- C7 (amended): whenever the sub-agent loop proceeds from one
request to the next, the model requested at least one tool call, and
the next request's conversation extends the previous one by the
assistant message followed by exactly one tool-role message per
dispatched call, in call order — on success carrying the (cap-
truncated, visibly marked) result text, on failure carrying the
`"error: " + message` string, itself subject to the same truncation;
tool failure never aborts the loop. -/
theorem subAgent_tool_replies (model : List Message → Bool → StreamResult)
    (execTool : Str → Str → Except Str Str) (cl mt cap : Int) :
    ∀ (rounds : Nat) (msgs : List Message) (k : Nat) (r r' : ModelRequest),
      (doSubAgentWithTools model execTool cl mt cap rounds msgs).1.get? k = some r →
      (doSubAgentWithTools model execTool cl mt cap rounds msgs).1.get? (k + 1) = some r' →
      (model r.msgs true).toolCalls ≠ [] ∧
      r'.msgs = r.msgs ++
        [⟨"assistant".toList, (model r.msgs true).content,
          (model r.msgs true).toolCalls, []⟩] ++
        (model r.msgs true).toolCalls.map (fun tc =>
          ⟨"tool".toList,
           toolResultContent cap (execTool tc.function.name tc.function.arguments),
           [], tc.id⟩) := by
  intro rounds
  induction rounds with
  | zero =>
    intro msgs k r r' hk hk1
    simp only [doSubAgentWithTools] at hk1
    rcases k with _ | k <;> simp at hk1
  | succ n ih =>
    intro msgs k r r' hk hk1
    simp only [doSubAgentWithTools] at hk hk1
    by_cases htc : (model msgs true).toolCalls = []
    · rw [if_pos htc] at hk1
      rcases k with _ | k <;> simp at hk1
    · rw [if_neg htc] at hk hk1
      cases k with
      | zero =>
        simp only [List.get?] at hk hk1
        obtain rfl : (⟨msgs, true, capMaxTokens cl mt msgs⟩ : ModelRequest) = r := by
          simpa using hk
        obtain ⟨b, hb⟩ := subAgent_head model execTool cl mt cap n (msgs ++
          [{ role := "assistant".toList, content := (model msgs true).content,
             toolCalls := (model msgs true).toolCalls, toolCallID := [] }] ++
          (model msgs true).toolCalls.map (fun tc =>
            { role := "tool".toList,
              content := toolResultContent cap
                (execTool tc.function.name tc.function.arguments),
              toolCalls := [], toolCallID := tc.id }))
        rw [hb] at hk1
        obtain rfl : (⟨msgs ++
            [{ role := "assistant".toList, content := (model msgs true).content,
               toolCalls := (model msgs true).toolCalls, toolCallID := [] }] ++
            (model msgs true).toolCalls.map (fun tc =>
              { role := "tool".toList,
                content := toolResultContent cap
                  (execTool tc.function.name tc.function.arguments),
                toolCalls := [], toolCallID := tc.id }), b,
            capMaxTokens cl mt _⟩ : ModelRequest) = r' := by
          simpa using hk1
        exact ⟨htc, rfl⟩
      | succ k =>
        simp only [List.get?] at hk hk1
        exact ih _ k r r' hk hk1

/-- Witness for `subAgent_tool_replies`: the demo run in which the
tool fails and its long error message is truncated. -/
theorem subAgent_tool_replies_witness :
    ((doSubAgentWithTools alwaysToolModel errExec 0 1000 5 1 demoMsgs).1.get? 0 =
        some subDemoReq0 ∧
      (doSubAgentWithTools alwaysToolModel errExec 0 1000 5 1 demoMsgs).1.get? 1 =
        some subDemoReq1) ∧
    ((alwaysToolModel subDemoReq0.msgs true).toolCalls ≠ [] ∧
      subDemoReq1.msgs = subDemoReq0.msgs ++
        [⟨"assistant".toList, (alwaysToolModel subDemoReq0.msgs true).content,
          (alwaysToolModel subDemoReq0.msgs true).toolCalls, []⟩] ++
        (alwaysToolModel subDemoReq0.msgs true).toolCalls.map (fun tc =>
          ⟨"tool".toList,
           toolResultContent 5 (errExec tc.function.name tc.function.arguments),
           [], tc.id⟩)) :=
  ⟨⟨by decide, by decide⟩,
   subAgent_tool_replies alwaysToolModel errExec 0 1000 5 1 demoMsgs 0
     subDemoReq0 subDemoReq1 (by decide) (by decide)⟩

/-- C7 counterexample: the claim exempts failure messages from
truncation, but the loop truncates them too.  With cap 5, the failing
tool's reply content is `"error\n[...truncated]"`, not
`"error: boom boom boom"`. -/
theorem toolError_truncated_claim_false :
    ((doSubAgentWithTools alwaysToolModel errExec 0 1000 5 2 demoMsgs).1.get? 1).map
        (fun r => r.msgs.getLast?.map (fun m => m.content)) =
      some (some ("error".toList ++ "\n[...truncated]".toList)) ∧
    ("error".toList ++ "\n[...truncated]".toList : Str) ≠
      "error: ".toList ++ "boom boom boom".toList := by
  refine ⟨by decide, by decide⟩

end TelegramAIBot
